import Mathlib

/-!
# Verification of the Wesolowski VDF implementation (js-wesolowski)

Shallow embedding of the TypeScript sources (`src/utils.ts`, `src/prime.ts`,
`src/vdf.ts`) into Lean 4, together with proofs and refutations of the frozen
specification claims.

Conventions:
* JavaScript `bigint` values are embedded as `Nat` wherever the source code
  guarantees nonnegativity; at the public entry points where the caller could
  pass a negative bigint (`evaluate`, `verify`) the embedded function takes
  `Int` inputs, performs the source's validations, and only then converts to
  `Nat` (all source arithmetic past validation is on nonnegative values).
* `Uint8Array` values are embedded as `List Nat` of byte values.
* A thrown exception is embedded as `Except.error`; `RangeError` and plain
  `Error` are the two kinds the source throws.
* The external SHA-512 primitive is a parameter `sha : List Nat → List Nat`.
  The external RNG is modelled as an oracle: where `isPrime` draws the random
  byte block for round `i` of testing the candidate `n`, the model reads
  `rng n i : Nat` (the nonnegative integer assembled from those bytes).
-/

set_option maxHeartbeats 1000000
set_option maxRecDepth 100000

namespace Wesolowski

/-- The two exception kinds thrown by the source (`RangeError` and `Error`). -/
inductive JsError where
  | rangeError
  | genericError
deriving DecidableEq, Repr

/-- `gcd` from `src/utils.ts`: Euclidean loop `while b ≠ 0: (a,b) ← (b, a % b)`. -/
def gcdW (a b : Nat) : Nat :=
  if h : b = 0 then a else gcdW b (a % b)
termination_by b
decreasing_by exact Nat.mod_lt _ (Nat.pos_of_ne_zero h)

/-- Number of binary digits of `n` (value of `n.toString(2).length` for `n > 0`). -/
def bitLen (n : Nat) : Nat :=
  if n = 0 then 0 else bitLen (n / 2) + 1
termination_by n
decreasing_by exact Nat.div_lt_self (Nat.pos_of_ne_zero (by assumption)) (by norm_num)

/-- The bit string `n.toString(2)` as a list of booleans, most significant first
(`[]` for `n = 0`; the source only takes bit strings of positive numbers). -/
def natBits (n : Nat) : List Bool :=
  if n = 0 then [] else natBits (n / 2) ++ [decide (n % 2 = 1)]
termination_by n
decreasing_by exact Nat.div_lt_self (Nat.pos_of_ne_zero (by assumption)) (by norm_num)

/-- Value of a most-significant-first bit string. -/
def bitsVal (l : List Bool) : Nat :=
  l.foldl (fun a b => 2 * a + (if b then 1 else 0)) 0

/-- Minimal big-endian byte representation of `x` (`[]` for `0`). -/
def beBytes (x : Nat) : List Nat :=
  if x = 0 then [] else beBytes (x / 256) ++ [x % 256]
termination_by x
decreasing_by exact Nat.div_lt_self (Nat.pos_of_ne_zero (by assumption)) (by norm_num)

/-- `bigintToBytes` from `src/utils.ts`: minimal byte representation, with
`0 ↦ [0]`.  (The source goes through the hex string `x.toString(16)`, padded to
even length and parsed big-endian, which yields exactly the minimal
big-endian bytes.) -/
def bigintToBytes (x : Nat) : List Nat :=
  if x = 0 then [0] else beBytes x

/-- `bigintByteLength` from `src/utils.ts`: `⌈hexDigits/2⌉`, i.e. the number of
base-256 digits, with `0 ↦ 1`. -/
def bigintByteLength (x : Nat) : Nat :=
  if x = 0 then 1 else (beBytes x).length

/-- `bigintToFixedBytes` from `src/utils.ts`: left-pad with zero bytes to
exactly `len` bytes, `RangeError` if the value does not fit. -/
def bigintToFixedBytes (x len : Nat) : Except JsError (List Nat) :=
  let bytes := bigintToBytes x
  if len < bytes.length then .error .rangeError
  else .ok (List.replicate (len - bytes.length) 0 ++ bytes)

/-- `bytesToBigint` from `src/utils.ts` (big-endian). -/
def bytesToBigint (bytes : List Nat) : Nat :=
  bytes.foldl (fun acc b => acc * 256 + b) 0

/-- `u64be` from `src/utils.ts`: 8 big-endian bytes, `RangeError` out of range. -/
def u64be (x : Nat) : Except JsError (List Nat) :=
  if 0xffffffffffffffff < x then .error .rangeError
  else .ok [x / 2 ^ 56 % 256, x / 2 ^ 48 % 256, x / 2 ^ 40 % 256, x / 2 ^ 32 % 256,
            x / 2 ^ 24 % 256, x / 2 ^ 16 % 256, x / 2 ^ 8 % 256, x % 256]

/-- `bigintBitLength` from `src/utils.ts`: `(bytes-1)*8 + (32 - clz32 msb)`
where `msb` is the top byte; `32 - Math.clz32 m` is the number of binary digits
of `m`, i.e. `bitLen m`. -/
def bigintBitLength (x : Nat) : Nat :=
  if x = 0 then 0
  else (bigintByteLength x - 1) * 8 + bitLen (x / 2 ^ ((bigintByteLength x - 1) * 8) % 256)

/-! ## Basic lemmas about the byte/bit layer -/

theorem gcdW_eq_gcd (a b : Nat) : gcdW a b = Nat.gcd a b := by
  induction b using Nat.strong_induction_on generalizing a with
  | _ b ih =>
    rw [gcdW]
    by_cases h : b = 0
    · simp [h]
    · simp only [h, dite_false]
      rw [ih (a % b) (Nat.mod_lt _ (Nat.pos_of_ne_zero h)) b]
      rw [Nat.gcd_comm a b, Nat.gcd_rec b a, Nat.gcd_comm]

theorem bitLen_pos (n : Nat) (h : n ≠ 0) : 0 < bitLen n := by
  rw [bitLen]; simp [h]

theorem lt_two_pow_bitLen (n : Nat) : n < 2 ^ bitLen n := by
  induction n using Nat.strong_induction_on with
  | _ n ih =>
    rw [bitLen]
    by_cases h : n = 0
    · simp [h]
    · simp only [h, if_false, pow_succ]
      have := ih (n / 2) (Nat.div_lt_self (Nat.pos_of_ne_zero h) (by norm_num))
      omega

theorem two_pow_bitLen_pred_le (n : Nat) (h : n ≠ 0) : 2 ^ (bitLen n - 1) ≤ n := by
  induction n using Nat.strong_induction_on with
  | _ n ih =>
    rw [bitLen]
    simp only [h, if_false]
    by_cases h2 : n / 2 = 0
    · have : n = 1 := by omega
      simp [this, bitLen]
    · have := ih (n / 2) (Nat.div_lt_self (Nat.pos_of_ne_zero h) (by norm_num)) h2
      have hp : 0 < bitLen (n / 2) := bitLen_pos _ h2
      have : 2 ^ (bitLen (n / 2) - 1 + 1) ≤ n / 2 * 2 := by
        rw [pow_succ]; omega
      rw [show bitLen (n / 2) + 1 - 1 = bitLen (n / 2) - 1 + 1 by omega]
      omega

theorem bitsVal_from (l : List Bool) (a : Nat) :
    l.foldl (fun a b => 2 * a + (if b then 1 else 0)) a
      = a * 2 ^ l.length + l.foldl (fun a b => 2 * a + (if b then 1 else 0)) 0 := by
  induction l generalizing a with
  | nil => simp
  | cons x xs ih =>
    have h1 := ih (2 * a + (if x then 1 else 0))
    have h2 := ih (2 * 0 + (if x then 1 else 0))
    simp only [List.foldl_cons, List.length_cons]
    rw [h1, h2]
    ring

theorem bitsVal_append (l₁ l₂ : List Bool) :
    bitsVal (l₁ ++ l₂) = bitsVal l₁ * 2 ^ l₂.length + bitsVal l₂ := by
  unfold bitsVal
  rw [List.foldl_append, bitsVal_from]

theorem bitsVal_natBits (n : Nat) : bitsVal (natBits n) = n := by
  induction n using Nat.strong_induction_on with
  | _ n ih =>
    rw [natBits]
    by_cases h : n = 0
    · simp [h, bitsVal]
    · simp only [h, if_false]
      rw [bitsVal_append, ih (n / 2) (Nat.div_lt_self (Nat.pos_of_ne_zero h) (by norm_num))]
      simp only [bitsVal, List.foldl, List.length_singleton, pow_one]
      rcases Nat.mod_two_eq_zero_or_one n with h2 | h2 <;> simp [h2] <;> omega

theorem bytesToBigint_from (l : List Nat) (a : Nat) :
    l.foldl (fun acc b => acc * 256 + b) a
      = a * 256 ^ l.length + l.foldl (fun acc b => acc * 256 + b) 0 := by
  induction l generalizing a with
  | nil => simp
  | cons x xs ih =>
    have h1 := ih (a * 256 + x)
    have h2 := ih (0 * 256 + x)
    simp only [List.foldl_cons, List.length_cons]
    rw [h1, h2]
    ring

theorem bytesToBigint_append (l₁ l₂ : List Nat) :
    bytesToBigint (l₁ ++ l₂) = bytesToBigint l₁ * 256 ^ l₂.length + bytesToBigint l₂ := by
  unfold bytesToBigint
  rw [List.foldl_append, bytesToBigint_from]

theorem beBytes_length_pos {b : Nat} (hb : b ≠ 0) : 0 < (beBytes b).length := by
  rw [beBytes]; simp [hb]

theorem beBytes_length_mono : ∀ {b : Nat} (a : Nat), a ≤ b → (beBytes a).length ≤ (beBytes b).length := by
  intro b
  induction b using Nat.strong_induction_on with
  | _ b ih =>
    intro a h
    by_cases ha : a = 0
    · subst ha
      rw [beBytes]
      simp
    · have hb : b ≠ 0 := by omega
      conv_lhs => rw [beBytes]
      conv_rhs => rw [beBytes]
      simp only [ha, hb, if_false, List.length_append, List.length_singleton]
      exact Nat.add_le_add_right
        (ih (b / 256) (Nat.div_lt_self (Nat.pos_of_ne_zero hb) (by norm_num))
          (a / 256) (Nat.div_le_div_right h)) 1

theorem bigintByteLength_le_of_le {a b : Nat} (h : a ≤ b) :
    bigintByteLength a ≤ bigintByteLength b := by
  unfold bigintByteLength
  by_cases ha : a = 0
  · by_cases hb : b = 0
    · simp [ha, hb]
    · simp only [ha, hb, if_true, if_false]
      exact beBytes_length_pos hb
  · have hb : b ≠ 0 := by omega
    simp only [ha, hb, if_false]
    exact beBytes_length_mono a h

theorem bigintByteLength_one_of_lt {a : Nat} (h : a < 256) : bigintByteLength a = 1 := by
  unfold bigintByteLength
  by_cases ha : a = 0
  · simp [ha]
  · simp only [ha, if_false]
    rw [beBytes]
    simp only [ha, if_false]
    rw [Nat.div_eq_of_lt h]
    simp [beBytes]

/-! ## Montgomery reducer (`class MontgomeryReducer` in `src/utils.ts`) -/

structure MontgomeryReducer where
  n : Nat
  rBits : Nat
  r : Nat
  rMask : Nat
  nPrime : Nat
deriving DecidableEq, Repr

/-- One Hensel iteration `nInv ← nInv * (2 - n * nInv) & rMask`.  JavaScript
bigint `&` with the all-ones mask `r - 1` is two's-complement, i.e. the
nonnegative residue modulo `r`, which for the possibly negative intermediate
is `Int.emod`. -/
def henselStep (n r v : Nat) : Nat :=
  (((v : Int) * (2 - (n : Int) * v)) % (r : Int)).toNat

/-- `computeNPrime` from `src/utils.ts`: `rBits` Hensel iterations starting at
`1`, then `n′ = (r - nInv) & rMask`  (for `0 ≤ nInv < r` this is `(r - nInv) % r`). -/
def computeNPrime (n rBits r : Nat) : Nat :=
  let nInv := (henselStep n r)^[rBits] 1
  (r - nInv) % r

/-- The constructor `new MontgomeryReducer(n)`.  Note that the source performs
no validation at all — in particular there is no parity check on `n`.
`n.toString(2).length` is `bitLen n` for `n > 0` and `1` for `n = 0`. -/
def mkMontgomery (n : Nat) : MontgomeryReducer :=
  let rBits0 := if n = 0 then 1 else bitLen n
  let rBits := if 2 ^ rBits0 ≤ n then rBits0 + 1 else rBits0
  let r := 2 ^ rBits
  { n := n, rBits := rBits, r := r, rMask := r - 1, nPrime := computeNPrime n rBits r }

/-- `reduce` from `src/utils.ts`: `m ← (x & rMask)·n′ & rMask`;
`t ← (x + m·n) >> rBits`; conditional subtraction.  (`& rMask` is `% r` and
`>> rBits` is `/ r` since `r = 2^rBits`, `rMask = r - 1`.) -/
def MontgomeryReducer.reduce (m : MontgomeryReducer) (x : Nat) : Nat :=
  let mm := x % m.r * m.nPrime % m.r
  let t := (x + mm * m.n) / m.r
  if m.n ≤ t then t - m.n else t

/-- `toMontgomery`: `x * r mod n`. -/
def MontgomeryReducer.toMontgomery (m : MontgomeryReducer) (x : Nat) : Nat :=
  x * m.r % m.n

/-- `fromMontgomery`: `reduce x`. -/
def MontgomeryReducer.fromMontgomery (m : MontgomeryReducer) (x : Nat) : Nat :=
  m.reduce x

/-- `multiply`: `reduce (a * b)`. -/
def MontgomeryReducer.multiply (m : MontgomeryReducer) (a b : Nat) : Nat :=
  m.reduce (a * b)

/-- `square`: `reduce (a * a)`. -/
def MontgomeryReducer.square (m : MontgomeryReducer) (a : Nat) : Nat :=
  m.reduce (a * a)

/-! ## Montgomery correctness lemmas -/

theorem henselStep_lt (n r v : Nat) (hr : 0 < r) : henselStep n r v < r := by
  unfold henselStep
  have h1 : (0 : Int) < (r : Int) := by exact_mod_cast hr
  have h2 := Int.emod_lt_of_pos ((v : Int) * (2 - (n : Int) * v)) h1
  have h3 := Int.emod_nonneg ((v : Int) * (2 - (n : Int) * v)) (by omega : (r : Int) ≠ 0)
  omega

theorem henselStep_cast (n r v : Nat) (hr : 0 < r) :
    ((henselStep n r v : Nat) : Int) = ((v : Int) * (2 - (n : Int) * v)) % (r : Int) := by
  unfold henselStep
  have h1 : (0 : Int) < (r : Int) := by exact_mod_cast hr
  have h3 := Int.emod_nonneg ((v : Int) * (2 - (n : Int) * v)) (by omega : (r : Int) ≠ 0)
  omega

theorem hensel_inv (n k : Nat) (hodd : n % 2 = 1) :
    ∀ i j, j ≤ k → j ≤ 2 ^ i →
      ((2 : Int) ^ j) ∣ ((n : Int) * (((henselStep n (2 ^ k))^[i]) 1 : Nat) - 1) := by
  intro i
  induction i with
  | zero =>
    intro j hjk hj2
    interval_cases j
    · simp
    · simp only [Function.iterate_zero, id_eq, Nat.cast_one, mul_one, pow_one]
      have : (n : Int) % 2 = 1 := by exact_mod_cast hodd
      omega
  | succ i ih =>
    intro j hjk hj2
    set v : Nat := ((henselStep n (2 ^ k))^[i]) 1 with hv
    have hiter : ((henselStep n (2 ^ k))^[i + 1]) 1 = henselStep n (2 ^ k) v := by
      rw [Function.iterate_succ_apply']
    set j1 := (j + 1) / 2 with hj1
    have hj1k : j1 ≤ k := by omega
    have hj1i : j1 ≤ 2 ^ i := by
      have : 2 ^ (i + 1) = 2 * 2 ^ i := by ring
      omega
    have H := ih j1 hj1k hj1i
    obtain ⟨e, he⟩ := H
    have hrpos : 0 < 2 ^ k := Nat.pos_pow_of_pos k (by norm_num)
    rw [hiter]
    have hcast := henselStep_cast n (2 ^ k) v hrpos
    -- n * (v*(2-n*v)) - 1 = -(n*v-1)^2
    have key : (n : Int) * ((v : Int) * (2 - (n : Int) * v)) - 1 = -(((n : Int) * v - 1)) ^ 2 := by
      ring
    have hdvd1 : ((2 : Int) ^ j) ∣ ((n : Int) * ((v : Int) * (2 - (n : Int) * v)) - 1) := by
      rw [key, he]
      have : ((2 : Int) ^ j1 * e) ^ 2 = 2 ^ (2 * j1) * e ^ 2 := by ring
      rw [this]
      have hj2j1 : j ≤ 2 * j1 := by omega
      exact dvd_neg.mpr (Dvd.dvd.mul_right (pow_dvd_pow 2 hj2j1) _)
    -- henselStep value is congruent to the product modulo 2^k, hence modulo 2^j
    have hmod : ((2 : Int) ^ k) ∣ (((v : Int) * (2 - (n : Int) * v)) - (henselStep n (2 ^ k) v : Nat)) := by
      rw [hcast]
      have hc : ((2 ^ k : Nat) : Int) = (2 : Int) ^ k := by push_cast; ring
      rw [← hc]
      exact Int.dvd_sub_of_emod_eq rfl
    have hjk2 : ((2 : Int) ^ j) ∣ ((2 : Int) ^ k) := pow_dvd_pow 2 hjk
    have hsplit : (n : Int) * (henselStep n (2 ^ k) v : Nat) - 1
        = ((n : Int) * ((v : Int) * (2 - (n : Int) * v)) - 1)
          - (n : Int) * (((v : Int) * (2 - (n : Int) * v)) - (henselStep n (2 ^ k) v : Nat)) := by
      ring
    rw [hsplit]
    exact dvd_sub hdvd1 (Dvd.dvd.mul_left (hjk2.trans hmod) n)

theorem mkMontgomery_n (n : Nat) : (mkMontgomery n).n = n := rfl

theorem mkMontgomery_rBits (n : Nat) (hn : n ≠ 0) : (mkMontgomery n).rBits = bitLen n := by
  unfold mkMontgomery
  simp [hn, Nat.not_le.mpr (lt_two_pow_bitLen n)]

theorem mkMontgomery_r_eq (n : Nat) (hn : n ≠ 0) : (mkMontgomery n).r = 2 ^ bitLen n := by
  unfold mkMontgomery
  simp [hn, Nat.not_le.mpr (lt_two_pow_bitLen n)]

theorem mkMontgomery_nPrime_eq (n : Nat) :
    (mkMontgomery n).nPrime = computeNPrime n (mkMontgomery n).rBits (mkMontgomery n).r := rfl

theorem mkMontgomery_n_lt_r (n : Nat) (hn : n ≠ 0) : n < (mkMontgomery n).r := by
  rw [mkMontgomery_r_eq n hn]
  exact lt_two_pow_bitLen n

theorem mkMontgomery_rBits_pos (n : Nat) (hn : n ≠ 0) : 0 < (mkMontgomery n).rBits := by
  rw [mkMontgomery_rBits n hn]
  exact bitLen_pos n hn

theorem mkMontgomery_r_pos (n : Nat) (hn : n ≠ 0) : 0 < (mkMontgomery n).r := by
  rw [mkMontgomery_r_eq n hn]
  positivity

/-- For odd `n > 1` the Hensel-lifted constant satisfies `n·n′ ≡ −1 (mod r)`. -/
theorem mont_nPrime_spec (n : Nat) (hodd : n % 2 = 1) (hn : 1 < n) :
    ((mkMontgomery n).r : Int) ∣ ((n : Int) * (mkMontgomery n).nPrime + 1) := by
  have hn0 : n ≠ 0 := by omega
  set k := (mkMontgomery n).rBits with hk
  have hrpos : 0 < (mkMontgomery n).r := mkMontgomery_r_pos n hn0
  have hr2 : (mkMontgomery n).r = 2 ^ k := by
    rw [hk, mkMontgomery_rBits n hn0, mkMontgomery_r_eq n hn0]
  have hkpos : 0 < k := mkMontgomery_rBits_pos n hn0
  set nInv := ((henselStep n (2 ^ k))^[k]) 1 with hni
  have hinv : ((2 : Int) ^ k) ∣ ((n : Int) * (nInv : Nat) - 1) :=
    hensel_inv n k hodd k k le_rfl (le_of_lt (Nat.lt_two_pow k))
  have hnInv_lt : nInv < 2 ^ k := by
    rw [hni]
    have hk1 : k = (k - 1) + 1 := by omega
    rw [hk1, Function.iterate_succ_apply']
    exact henselStep_lt _ _ _ (by positivity)
  have hnp : (mkMontgomery n).nPrime = (2 ^ k - nInv) % 2 ^ k := by
    rw [mkMontgomery_nPrime_eq, ← hr2]
    unfold computeNPrime
    rw [hr2, ← hni]
  -- r ∣ ((r - nInv) - nPrime)
  have hd1 : ((2 : Int) ^ k) ∣ (((2 ^ k - nInv : Nat) : Int) - ((mkMontgomery n).nPrime : Nat)) := by
    rw [hnp]
    have : (((2 ^ k - nInv : Nat) % 2 ^ k : Nat) : Int)
        = ((2 ^ k - nInv : Nat) : Int) % ((2 ^ k : Nat) : Int) := by
      push_cast
      ring
    rw [this]
    have hc : ((2 ^ k : Nat) : Int) = (2 : Int) ^ k := by push_cast; ring
    rw [← hc]
    exact Int.dvd_sub_of_emod_eq rfl
  have hsub : (((2 ^ k - nInv : Nat)) : Int) = (2 : Int) ^ k - (nInv : Int) := by
    have := le_of_lt hnInv_lt
    push_cast [this]
    ring
  rw [hr2]
  have hsplit : (n : Int) * (mkMontgomery n).nPrime + 1
      = -((n : Int) * (nInv : Nat) - 1)
        - (n : Int) * ((((2 ^ k - nInv : Nat)) : Int) - ((mkMontgomery n).nPrime : Nat))
        + (n : Int) * (((2 ^ k - nInv : Nat)) : Int) + (n : Int) * (nInv : Int) := by
    ring
  have hsplit2 : (n : Int) * (((2 ^ k - nInv : Nat)) : Int) + (n : Int) * (nInv : Int)
      = (n : Int) * (2 : Int) ^ k := by
    rw [hsub]; ring
  have hc : ((2 ^ k : Nat) : Int) = (2 : Int) ^ k := by push_cast; ring
  rw [hc, hsplit]
  have d1 : ((2 : Int) ^ k) ∣ -((n : Int) * (nInv : Nat) - 1) := dvd_neg.mpr hinv
  have d2 : ((2 : Int) ^ k) ∣ (n : Int) * ((((2 ^ k - nInv : Nat)) : Int) - ((mkMontgomery n).nPrime : Nat)) :=
    Dvd.dvd.mul_left hd1 n
  have d3 : ((2 : Int) ^ k) ∣ ((n : Int) * (((2 ^ k - nInv : Nat)) : Int) + (n : Int) * (nInv : Int)) := by
    rw [hsplit2]
    exact Dvd.dvd.mul_left (dvd_refl ((2 : Int) ^ k)) (n : Int)
  have := dvd_add (dvd_sub d1 d2) d3
  convert this using 1
  ring

/-- Montgomery reduction divisibility: `r ∣ x + m·n` where `m = (x mod r)·n′ mod r`. -/
theorem mont_reduce_dvd (n : Nat) (hodd : n % 2 = 1) (hn : 1 < n) (x : Nat) :
    (mkMontgomery n).r ∣ (x + (x % (mkMontgomery n).r * (mkMontgomery n).nPrime % (mkMontgomery n).r) * n) := by
  have hn0 : n ≠ 0 := by omega
  set r := (mkMontgomery n).r with hr
  set np := (mkMontgomery n).nPrime with hnp
  have hrpos : 0 < r := mkMontgomery_r_pos n hn0
  rw [← Int.natCast_dvd_natCast]
  push_cast
  -- mm ≡ x·np (mod r)
  have h1 : ((x : Int) % r * np % r) ≡ (x : Int) * np [ZMOD (r : Int)] := by
    calc ((x : Int) % r * np % r) ≡ (x : Int) % r * np [ZMOD (r : Int)] := Int.emod_emod_of_dvd _ dvd_rfl
    _ ≡ (x : Int) * np [ZMOD (r : Int)] := Int.ModEq.mul_right np (Int.emod_emod_of_dvd _ dvd_rfl)
  have h2 : (x : Int) + ((x : Int) % r * np % r) * n ≡ (x : Int) + ((x : Int) * np) * n [ZMOD (r : Int)] :=
    Int.ModEq.add_left _ (Int.ModEq.mul_right n h1)
  have h3 : (x : Int) + ((x : Int) * np) * n = (x : Int) * ((n : Int) * np + 1) := by ring
  have h4 : (x : Int) + ((x : Int) * np) * n ≡ 0 [ZMOD (r : Int)] := by
    rw [h3]
    exact (Int.modEq_zero_iff_dvd).mpr (Dvd.dvd.mul_left (mont_nPrime_spec n hodd hn) x)
  exact (Int.modEq_zero_iff_dvd).mp (h2.trans h4)

/-- Arithmetic core of Montgomery reduction correctness. -/
theorem mont_reduce_arith (n r np x : Nat) (hrpos : 0 < r) (hn : 0 < n)
    (hd : r ∣ (x + (x % r * np % r) * n)) (hx : x < n * r) :
    (if n ≤ (x + (x % r * np % r) * n) / r then (x + (x % r * np % r) * n) / r - n
      else (x + (x % r * np % r) * n) / r) < n
    ∧ (if n ≤ (x + (x % r * np % r) * n) / r then (x + (x % r * np % r) * n) / r - n
      else (x + (x % r * np % r) * n) / r) * r % n = x % n := by
  set mm := x % r * np % r with hmm
  set t := (x + mm * n) / r with ht
  have htr : t * r = x + mm * n := by
    rw [ht]
    exact Nat.div_mul_cancel hd
  have hmmlt : mm < r := Nat.mod_lt _ hrpos
  have htlt : t < 2 * n := by
    by_contra hcon
    push_neg at hcon
    have h1 : 2 * (n * r) ≤ t * r := by
      calc 2 * (n * r) = 2 * n * r := by ring
      _ ≤ t * r := Nat.mul_le_mul_right r hcon
    have h2 : mm * n < n * r := by
      have h := (Nat.mul_lt_mul_right hn).mpr hmmlt
      rw [Nat.mul_comm r n] at h
      exact h
    omega
  have hcong : t * r % n = x % n := by
    rw [htr, mul_comm mm n]
    exact Nat.add_mul_mod_self_left x n mm
  by_cases hcase : n ≤ t
  · simp only [hcase, if_true]
    constructor
    · omega
    · have heq : (t - n) * r + n * r = t * r := by
        calc (t - n) * r + n * r = ((t - n) + n) * r := by ring
        _ = t * r := by rw [Nat.sub_add_cancel hcase]
      have h2 : ((t - n) * r + n * r) % n = x % n := by rw [heq]; exact hcong
      rwa [Nat.add_mul_mod_self_left] at h2
  · simp only [hcase, if_false]
    exact ⟨by omega, hcong⟩

/-- Montgomery reduction is correct: for odd `n > 1` and `x < n·r`,
`reduce x < n` and `reduce x · r ≡ x (mod n)`. -/
theorem mont_reduce_spec (n : Nat) (hodd : n % 2 = 1) (hn : 1 < n) (x : Nat)
    (hx : x < n * (mkMontgomery n).r) :
    (mkMontgomery n).reduce x < n ∧ (mkMontgomery n).reduce x * (mkMontgomery n).r % n = x % n := by
  have hn0 : n ≠ 0 := by omega
  have h := mont_reduce_arith n (mkMontgomery n).r (mkMontgomery n).nPrime x
    (mkMontgomery_r_pos n hn0) (by omega) (mont_reduce_dvd n hodd hn x) hx
  unfold MontgomeryReducer.reduce
  simpa only [mkMontgomery_n] using h

/-! ## Modular exponentiation (`modpow` and helpers in `src/utils.ts`) -/

def MODPOW_WINDOW_THRESHOLD_BITS : Nat := 64
def MODPOW_MONTGOMERY_THRESHOLD_N_BITS : Nat := 1024
def MODPOW_MONTGOMERY_THRESHOLD_EXP_BITS : Nat := 128

/-- `shouldUseMontgomeryForModpow` from `src/utils.ts`. -/
def shouldUseMontgomeryForModpow (n : Nat) (expBits : Nat) : Bool :=
  if n % 2 = 0 then false
  else if expBits < MODPOW_MONTGOMERY_THRESHOLD_EXP_BITS then false
  else decide (MODPOW_MONTGOMERY_THRESHOLD_N_BITS ≤ bigintByteLength n * 8)

/-- `selectWindowSize` from `src/utils.ts`. -/
def selectWindowSize (expBits : Nat) : Nat :=
  if expBits ≤ 32 then 1
  else if expBits ≤ 96 then 3
  else if expBits ≤ 384 then 4
  else if expBits ≤ 1024 then 5
  else 6

/-- The loop of `modpowClassic` from `src/utils.ts` (right-to-left binary
square-and-multiply over the accumulator `res`). -/
def modpowClassicGo (p res x y : Nat) : Nat :=
  if y = 0 then res
  else
    let res2 := if y % 2 = 1 then res * x % p else res
    let y2 := y / 2
    let x2 := if 0 < y2 then x * x % p else x
    modpowClassicGo p res2 x2 y2
termination_by y
decreasing_by exact Nat.div_lt_self (Nat.pos_of_ne_zero (by assumption)) (by norm_num)

/-- `modpowClassic` from `src/utils.ts`. -/
def modpowClassic (base exp md : Nat) : Nat :=
  modpowClassicGo md 1 base exp

/-- Drop trailing `false` bits: the `while bits.charCodeAt(j-1) === 48: j--`
window trimming of `modpowWindowedCore`. -/
def trimRight (l : List Bool) : List Bool :=
  (l.reverse.dropWhile (fun b => !b)).reverse

/-- The table of odd powers (`table[1] = base`, `table[i] = table[i-2] * base2`);
even indices are never read by the scan (windows end in a `1` bit) and default
to `base` here. -/
def oddPowTable {M : Type} (mul : M → M → M) (base base2 : M) : Nat → M
  | 0 => base
  | 1 => base
  | k + 2 => mul (oddPowTable mul base base2 k) base2

theorem dropWhile_head_true : ∀ (l : List Bool) (h : l.dropWhile (fun b => !b) ≠ []),
    (l.dropWhile (fun b => !b)).head h = true := by
  intro l
  induction l with
  | nil => intro h; simp at h
  | cons x xs ih =>
    intro h
    cases x with
    | true => simp [List.dropWhile]
    | false =>
      simp only [List.dropWhile] at h ⊢
      exact ih (by simpa using h)

theorem trimRight_ne_nil {l : List Bool} (h : true ∈ l) : trimRight l ≠ [] := by
  unfold trimRight
  simp only [ne_eq, List.reverse_eq_nil_iff]
  intro hd
  rw [List.dropWhile_eq_nil_iff] at hd
  have := hd true (List.mem_reverse.mpr h)
  simp at this

theorem trimRight_append_replicate (l : List Bool) :
    l = trimRight l ++ List.replicate (l.length - (trimRight l).length) false := by
  have hsplit := List.takeWhile_append_dropWhile (fun b => !b) l.reverse
  have htake : l.reverse.takeWhile (fun b => !b)
      = List.replicate (l.reverse.takeWhile (fun b => !b)).length false := by
    apply List.eq_replicate_of_mem
    intro b hb
    simpa using List.mem_takeWhile_imp hb
  have hlensum : (l.reverse.takeWhile (fun b => !b)).length
      + (l.reverse.dropWhile (fun b => !b)).length = l.length := by
    have h1 := congrArg List.length hsplit
    rw [List.length_append, List.length_reverse] at h1
    exact h1
  have hrev : l = (l.reverse.dropWhile (fun b => !b)).reverse
      ++ (l.reverse.takeWhile (fun b => !b)).reverse := by
    have h2 := congrArg List.reverse hsplit
    rw [List.reverse_append, List.reverse_reverse] at h2
    exact h2.symm
  conv_lhs => rw [hrev]
  unfold trimRight
  congr 1
  rw [htake, List.reverse_replicate]
  congr 1
  have h2 : (l.reverse.dropWhile (fun b => !b)).reverse.length
      = (l.reverse.dropWhile (fun b => !b)).length := by simp
  omega

theorem trimRight_last_true (l : List Bool) (h : trimRight l ≠ []) :
    (trimRight l).getLast h = true := by
  unfold trimRight at h ⊢
  rw [List.getLast_reverse]
  exact dropWhile_head_true l.reverse (by simpa using h)

theorem bitsVal_lt (l : List Bool) : bitsVal l < 2 ^ l.length := by
  induction l with
  | nil => simp [bitsVal]
  | cons x xs ih =>
    have h : bitsVal (x :: xs)
        = (if x then 1 else 0) * 2 ^ xs.length + bitsVal xs := by
      have : (x :: xs) = [x] ++ xs := rfl
      rw [this, bitsVal_append]
      congr 1
      cases x <;> simp [bitsVal]
    rw [h]
    simp only [List.length_cons, pow_succ]
    cases x <;> simp <;> omega

theorem bitsVal_odd_of_last_true (l : List Bool) (h : l ≠ []) (hlast : l.getLast h = true) :
    bitsVal l % 2 = 1 := by
  have hdecomp := List.dropLast_append_getLast h
  rw [hlast] at hdecomp
  conv_lhs => rw [← hdecomp]
  rw [bitsVal_append]
  simp [bitsVal]
  omega

/-- The scanning loop of `modpowWindowedCore` from `src/utils.ts`.  On a `1`
bit, the window is the next `min window len` bits with trailing zeros trimmed
(the source decrements `j` while the bit is `'0'`; since the first bit is `'1'`
the trimmed window is nonempty).  The `max 1` guard only matters for
`window = 0`, which the source never passes (`selectWindowSize ≥ 1`). -/
def coreLoop {M : Type} (sq : M → M) (mul : M → M → M) (table : Nat → M) (window : Nat) :
    List Bool → M → M
  | [], acc => acc
  | false :: rest, acc => coreLoop sq mul table window rest (sq acc)
  | true :: rest, acc =>
      let w := trimRight ((true :: rest).take (max 1 (min window (rest.length + 1))))
      coreLoop sq mul table window ((true :: rest).drop w.length)
        (mul (sq^[w.length] acc) (table (bitsVal w)))
termination_by bits => bits.length
decreasing_by
· simp
· simp only [List.length_drop]
  have hw : trimRight ((true :: rest).take (max 1 (min window (rest.length + 1)))) ≠ [] := by
    apply trimRight_ne_nil
    have h1 : 1 ≤ max 1 (min window (rest.length + 1)) := le_max_left _ _
    cases hmx : max 1 (min window (rest.length + 1)) with
    | zero => omega
    | succ k => simp [List.take_succ_cons]
  have := List.length_pos.mpr hw
  simp only [List.length_cons]
  omega

/-- `modpowWindowedCore` from `src/utils.ts`, generic in the multiplication
(the source passes plain modular or Montgomery `square`/`multiply` closures).
`base2 = sq base` is the source's `base2` (computed when `tableSize > 2`). -/
def modpowWindowedCore {M : Type} (base : M) (bits : List Bool) (window : Nat)
    (sq : M → M) (mul : M → M → M) (one : M) : M :=
  coreLoop sq mul (oddPowTable mul base (sq base)) window bits one

/-- `modpow` from `src/utils.ts`: edge cases, classic path for short exponents,
then sliding-window with optional Montgomery routing. -/
def modpow (x y p : Nat) : Nat :=
  if p = 1 then 0
  else if y = 0 then 1 % p
  else if y = 1 then x % p
  else if y = 2 then x % p * (x % p) % p
  else
    let base := x % p
    let expBits := bigintBitLength y
    if expBits ≤ MODPOW_WINDOW_THRESHOLD_BITS then modpowClassic base y p
    else
      let window := selectWindowSize expBits
      let bits := natBits y
      if shouldUseMontgomeryForModpow p expBits then
        let mont := mkMontgomery p
        mont.fromMontgomery (modpowWindowedCore (mont.toMontgomery base) bits window
          (fun a => mont.square a) (fun a b => mont.multiply a b) (mont.toMontgomery 1))
      else
        modpowWindowedCore base bits window (fun a => a * a % p) (fun a b => a * b % p) 1

/-! ## Generic correctness of the windowed exponentiation core

The scan is proved correct for any carrier `M` with `square`/`multiply`
operations that are tracked by a function `f : M → N` into a commutative
monoid on a `P`-stable subset; this covers both the plain path
(`f = Nat.cast : ℕ → ZMod p`) and the Montgomery path
(`f a = ↑a * u⁻¹` with `u` the unit `R mod n`). -/

theorem sq_iterate_spec {M N : Type} [CommMonoid N] (sq : M → M)
    (P : M → Prop) (f : M → N)
    (hsq : ∀ a, P a → P (sq a) ∧ f (sq a) = f a * f a) :
    ∀ (m : Nat) (a : M), P a → P (sq^[m] a) ∧ f (sq^[m] a) = f a ^ 2 ^ m := by
  intro m
  induction m with
  | zero => intro a ha; simpa using ha
  | succ m ih =>
    intro a ha
    rw [Function.iterate_succ_apply']
    obtain ⟨hP, hf⟩ := ih a ha
    obtain ⟨hP2, hf2⟩ := hsq _ hP
    refine ⟨hP2, ?_⟩
    rw [hf2, hf, ← pow_add]
    congr 1
    rw [pow_succ]
    omega

theorem oddPowTable_spec {M N : Type} [CommMonoid N] (mul : M → M → M)
    (P : M → Prop) (f : M → N) (base base2 : M)
    (hmul : ∀ a c, P a → P c → P (mul a c) ∧ f (mul a c) = f a * f c)
    (hb : P base) (hb2 : P base2) (hfb2 : f base2 = f base * f base) :
    ∀ j, P (oddPowTable mul base base2 (2 * j + 1))
      ∧ f (oddPowTable mul base base2 (2 * j + 1)) = f base ^ (2 * j + 1) := by
  intro j
  induction j with
  | zero =>
    constructor
    · exact hb
    · simp [oddPowTable]
  | succ j ih =>
    have h : 2 * (j + 1) + 1 = (2 * j + 1) + 2 := by omega
    obtain ⟨hP, hf⟩ := ih
    obtain ⟨hP2, hf2⟩ := hmul _ _ hP hb2
    have he : oddPowTable mul base base2 (2 * j + 1 + 2)
        = mul (oddPowTable mul base base2 (2 * j + 1)) base2 := by
      simp [oddPowTable]
    rw [h, he]
    refine ⟨hP2, ?_⟩
    rw [hf2, hf, hfb2, ← mul_assoc, ← pow_succ, ← pow_succ]

theorem coreLoop_cons_true {M : Type} (sq : M → M) (mul : M → M → M) (table : Nat → M)
    (window : Nat) (rest : List Bool) (acc : M) :
    coreLoop sq mul table window (true :: rest) acc
      = coreLoop sq mul table window
          ((true :: rest).drop
            (trimRight ((true :: rest).take (max 1 (min window (rest.length + 1))))).length)
          (mul
            ((sq^[(trimRight ((true :: rest).take (max 1 (min window (rest.length + 1))))).length]) acc)
            (table (bitsVal (trimRight ((true :: rest).take (max 1 (min window (rest.length + 1)))))))) := by
  rw [coreLoop]

theorem coreLoop_exponent_algebra {N : Type} [CommMonoid N] (A bb : N)
    (m d u v LL : Nat) (hmd : m + d = LL) :
    (A ^ 2 ^ m * bb ^ v) ^ 2 ^ d * bb ^ u = A ^ 2 ^ LL * bb ^ (v * 2 ^ d + u) := by
  subst hmd
  rw [mul_pow, ← pow_mul, ← pow_mul, mul_assoc, ← pow_add]
  congr 1
  rw [pow_add]

theorem coreLoop_spec {M N : Type} [CommMonoid N] (sq : M → M) (mul : M → M → M)
    (table : Nat → M) (window : Nat) (hwin : 1 ≤ window)
    (P : M → Prop) (f : M → N) (b : N)
    (hsq : ∀ a, P a → P (sq a) ∧ f (sq a) = f a * f a)
    (hmul : ∀ a c, P a → P c → P (mul a c) ∧ f (mul a c) = f a * f c)
    (htab : ∀ k, k % 2 = 1 → k < 2 ^ window → P (table k) ∧ f (table k) = b ^ k) :
    ∀ (fuel : Nat) (bits : List Bool), bits.length ≤ fuel → ∀ (acc : M), P acc →
      P (coreLoop sq mul table window bits acc)
      ∧ f (coreLoop sq mul table window bits acc)
        = f acc ^ 2 ^ bits.length * b ^ bitsVal bits := by
  intro fuel
  induction fuel with
  | zero =>
    intro bits hlen acc hacc
    have hnil : bits = [] := List.eq_nil_of_length_eq_zero (by omega)
    subst hnil
    have he : coreLoop sq mul table window [] acc = acc := by simp [coreLoop]
    rw [he]
    refine ⟨hacc, ?_⟩
    simp [bitsVal]
  | succ fuel ih =>
    intro bits hlen acc hacc
    match bits with
    | [] =>
      have he : coreLoop sq mul table window [] acc = acc := by simp [coreLoop]
      rw [he]
      refine ⟨hacc, ?_⟩
      simp [bitsVal]
    | false :: rest =>
      obtain ⟨hP1, hf1⟩ := hsq acc hacc
      have hr := ih rest (by simp at hlen; omega) (sq acc) hP1
      have hunfold : coreLoop sq mul table window (false :: rest) acc
          = coreLoop sq mul table window rest (sq acc) := by
        simp [coreLoop]
      rw [hunfold]
      refine ⟨hr.1, ?_⟩
      rw [hr.2, hf1]
      have hbv : bitsVal (false :: rest) = bitsVal rest := rfl
      rw [hbv]
      have hl : (false :: rest).length = rest.length + 1 := rfl
      rw [hl]
      congr 1
      rw [mul_pow, ← pow_add]
      congr 1
      rw [pow_succ]
      omega
    | true :: rest =>
      rw [coreLoop_cons_true]
      set K := max 1 (min window (rest.length + 1)) with hK
      set w := trimRight ((true :: rest).take K) with hw
      have hKpos : 1 ≤ K := le_max_left _ _
      have hKwin : K ≤ window := by omega
      have htrueK : true ∈ (true :: rest).take K := by
        cases hKc : K with
        | zero => omega
        | succ k => simp [List.take_succ_cons]
      have hwne : w ≠ [] := trimRight_ne_nil htrueK
      have hm : 0 < w.length := List.length_pos.mpr hwne
      have hdecomp := trimRight_append_replicate ((true :: rest).take K)
      rw [← hw] at hdecomp
      set j := ((true :: rest).take K).length - w.length with hj
      have hKlen : ((true :: rest).take K).length = min K (true :: rest).length :=
        List.length_take K (true :: rest)
      have hmK : w.length + j = ((true :: rest).take K).length := by
        have h2 := congrArg List.length hdecomp
        rw [List.length_append, List.length_replicate] at h2
        omega
      have hLsplit : (true :: rest) = w ++ (List.replicate j false ++ (true :: rest).drop K) := by
        conv_lhs => rw [← List.take_append_drop K (true :: rest)]
        rw [hdecomp, List.append_assoc]
      have hdrop : (true :: rest).drop w.length = List.replicate j false ++ (true :: rest).drop K := by
        conv_lhs => rw [hLsplit]
        exact List.drop_left w _
      have hLw : (true :: rest) = w ++ (true :: rest).drop w.length := by
        rw [hdrop]
        exact hLsplit
      have hlenL : w.length + ((true :: rest).drop w.length).length = (true :: rest).length := by
        have h2 := congrArg List.length hLw
        rw [List.length_append] at h2
        omega
      have hbvL : bitsVal (true :: rest)
          = bitsVal w * 2 ^ ((true :: rest).drop w.length).length
            + bitsVal ((true :: rest).drop w.length) := by
        conv_lhs => rw [hLw]
        rw [bitsVal_append]
      have hwlen : w.length ≤ window := by
        have h1 : w.length ≤ ((true :: rest).take K).length := by omega
        simp only [List.length_cons] at hKlen
        omega
      have hlast : w.getLast hwne = true := trimRight_last_true ((true :: rest).take K) hwne
      have hodd : bitsVal w % 2 = 1 := bitsVal_odd_of_last_true w hwne hlast
      have hblt : bitsVal w < 2 ^ window :=
        lt_of_lt_of_le (bitsVal_lt w) (Nat.pow_le_pow_right (by norm_num) hwlen)
      obtain ⟨hPt, hft⟩ := htab (bitsVal w) hodd hblt
      obtain ⟨hPs, hfs⟩ := sq_iterate_spec sq P f hsq w.length acc hacc
      obtain ⟨hPm, hfm⟩ := hmul _ _ hPs hPt
      have hfuel : ((true :: rest).drop w.length).length ≤ fuel := by
        have h1 : (true :: rest).length = rest.length + 1 := rfl
        have h2 : rest.length + 1 ≤ fuel + 1 := by simpa using hlen
        omega
      have hrec := ih ((true :: rest).drop w.length) hfuel _ hPm
      refine ⟨hrec.1, ?_⟩
      rw [hrec.2, hfm, hfs, hft, hbvL]
      exact coreLoop_exponent_algebra (f acc) b w.length
        ((true :: rest).drop w.length).length (bitsVal ((true :: rest).drop w.length))
        (bitsVal w) (true :: rest).length hlenL
/-! ## Instantiated modpow correctness -/

theorem natCast_zmod_inj {n a b : Nat} (ha : a < n) (hb : b < n) (h : (a : ZMod n) = b) :
    a = b := by
  haveI : NeZero n := ⟨by omega⟩
  have h2 := congrArg ZMod.val h
  rwa [ZMod.val_cast_of_lt ha, ZMod.val_cast_of_lt hb] at h2

theorem natmod_cast_eq {n a b : Nat} (h : a % n = b % n) : (a : ZMod n) = b := by
  rw [← ZMod.natCast_mod a n, ← ZMod.natCast_mod b n, h]

theorem zmod_mul_unit_eq {p : Nat} (u : (ZMod p)ˣ) {a b : ZMod p} (h : a * ↑u = b) :
    a = b * ↑u⁻¹ := by
  rw [← h, Units.mul_inv_cancel_right]

theorem modpowClassicGo_spec (p : Nat) (hp : 0 < p) :
    ∀ y res x, 1 ≤ y →
      modpowClassicGo p res x y < p
      ∧ ((modpowClassicGo p res x y : Nat) : ZMod p) = (res : ZMod p) * (x : ZMod p) ^ y := by
  intro y
  induction y using Nat.strong_induction_on with
  | _ y ih =>
    intro res x hy
    have hy0 : y ≠ 0 := by omega
    by_cases hylt : y / 2 = 0
    · have hy1 : y = 1 := by omega
      subst hy1
      have he : modpowClassicGo p res x 1 = res * x % p := by
        rw [modpowClassicGo]
        norm_num
        rw [modpowClassicGo]
        norm_num
      rw [he]
      constructor
      · exact Nat.mod_lt _ hp
      · rw [natmod_cast_eq (Nat.mod_mod_of_dvd _ dvd_rfl)]
        push_cast
        ring
    · have hge2 : 2 ≤ y := by omega
      have hlt : y / 2 < y := Nat.div_lt_self (by omega) (by norm_num)
      have hr := ih (y / 2) hlt (if y % 2 = 1 then res * x % p else res) (x * x % p) (by omega)
      have he : modpowClassicGo p res x y
          = modpowClassicGo p (if y % 2 = 1 then res * x % p else res) (x * x % p) (y / 2) := by
        rw [modpowClassicGo]
        simp only [hy0, if_false, Nat.pos_of_ne_zero hylt, if_true]
      rw [he]
      refine ⟨hr.1, ?_⟩
      rw [hr.2]
      have hres2 : ((if y % 2 = 1 then res * x % p else res : Nat) : ZMod p)
          = (res : ZMod p) * (x : ZMod p) ^ (y % 2) := by
        rcases Nat.mod_two_eq_zero_or_one y with h | h
        · simp [h]
        · simp only [h, if_true]
          rw [natmod_cast_eq (Nat.mod_mod_of_dvd _ dvd_rfl)]
          push_cast
          ring
      have hx2 : ((x * x % p : Nat) : ZMod p) = (x : ZMod p) * x := by
        rw [natmod_cast_eq (Nat.mod_mod_of_dvd _ dvd_rfl)]
        push_cast
        ring
      rw [hres2, hx2, ← pow_two, ← pow_mul, mul_assoc, ← pow_add]
      have hexp : y % 2 + 2 * (y / 2) = y := by omega
      rw [hexp]

theorem modpowClassic_spec (base exp md : Nat) (hp : 0 < md) (he : 1 ≤ exp) :
    modpowClassic base exp md < md
    ∧ ((modpowClassic base exp md : Nat) : ZMod md) = (base : ZMod md) ^ exp := by
  unfold modpowClassic
  have h := modpowClassicGo_spec md hp exp 1 base he
  refine ⟨h.1, ?_⟩
  rw [h.2]
  push_cast
  ring

/-- The plain (non-Montgomery) windowed path computes `base^(bitsVal bits) mod p`. -/
theorem windowed_plain_spec (p : Nat) (hp : 1 < p) (base : Nat) (hb : base < p)
    (bits : List Bool) (window : Nat) (hwin : 1 ≤ window) :
    modpowWindowedCore base bits window (fun a => a * a % p) (fun a b => a * b % p) 1 < p
    ∧ ((modpowWindowedCore base bits window (fun a => a * a % p) (fun a b => a * b % p) 1 : Nat) : ZMod p)
      = (base : ZMod p) ^ bitsVal bits := by
  have hppos : 0 < p := by omega
  have hsq : ∀ a : Nat, a < p →
      (a * a % p < p) ∧ ((a * a % p : Nat) : ZMod p) = (a : ZMod p) * (a : ZMod p) := by
    intro a ha
    refine ⟨Nat.mod_lt _ hppos, ?_⟩
    rw [natmod_cast_eq (Nat.mod_mod_of_dvd _ dvd_rfl)]
    push_cast
    ring
  have hmul : ∀ a c : Nat, a < p → c < p →
      (a * c % p < p) ∧ ((a * c % p : Nat) : ZMod p) = (a : ZMod p) * (c : ZMod p) := by
    intro a c _ _
    refine ⟨Nat.mod_lt _ hppos, ?_⟩
    rw [natmod_cast_eq (Nat.mod_mod_of_dvd _ dvd_rfl)]
    push_cast
    ring
  have htab : ∀ k, k % 2 = 1 → k < 2 ^ window →
      (oddPowTable (fun a b => a * b % p) base (base * base % p) k < p)
      ∧ ((oddPowTable (fun a b => a * b % p) base (base * base % p) k : Nat) : ZMod p)
        = (base : ZMod p) ^ k := by
    intro k hk _
    obtain ⟨j, hj⟩ : ∃ j, k = 2 * j + 1 := ⟨k / 2, by omega⟩
    subst hj
    exact oddPowTable_spec (fun a b => a * b % p) (fun a => a < p)
      (fun a : Nat => (a : ZMod p)) base (base * base % p) hmul hb
      (Nat.mod_lt _ hppos) (hsq base hb).2 j
  have h := coreLoop_spec (fun a => a * a % p) (fun a b => a * b % p)
    (oddPowTable (fun a b => a * b % p) base (base * base % p)) window hwin
    (fun a => a < p) (fun a : Nat => (a : ZMod p)) (base : ZMod p)
    hsq hmul htab bits.length bits le_rfl 1 (by omega)
  unfold modpowWindowedCore
  refine ⟨h.1, ?_⟩
  have h2 := h.2
  dsimp only at h2
  rw [h2]
  push_cast
  simp

/-- The Montgomery windowed path computes `base^(bitsVal bits) mod p` for odd `p`. -/
theorem windowed_mont_spec (p : Nat) (hodd : p % 2 = 1) (hp : 1 < p) (base : Nat) (hb : base < p)
    (bits : List Bool) (window : Nat) (hwin : 1 ≤ window) :
    (mkMontgomery p).fromMontgomery (modpowWindowedCore ((mkMontgomery p).toMontgomery base)
        bits window (fun a => (mkMontgomery p).square a)
        (fun a b => (mkMontgomery p).multiply a b) ((mkMontgomery p).toMontgomery 1))
      = base ^ bitsVal bits % p := by
  have hp0 : p ≠ 0 := by omega
  have hppos : 0 < p := by omega
  set r := (mkMontgomery p).r with hr
  have hrp : p < r := mkMontgomery_n_lt_r p hp0
  have hcop : Nat.Coprime r p := by
    rw [hr, mkMontgomery_r_eq p hp0]
    exact Nat.Coprime.pow_left _ (Nat.coprime_two_left.mpr (Nat.odd_iff.mpr hodd))
  set u : (ZMod p)ˣ := ZMod.unitOfCoprime r hcop with hu
  have hucoe : (↑u : ZMod p) = (r : ZMod p) := ZMod.coe_unitOfCoprime r hcop
  -- the tracking function
  set f : Nat → ZMod p := fun a => (a : ZMod p) * ↑u⁻¹ with hf
  have hreduce : ∀ z : Nat, z < p * r →
      (mkMontgomery p).reduce z < p ∧ ((mkMontgomery p).reduce z : ZMod p) = (z : ZMod p) * ↑u⁻¹ := by
    intro z hz
    obtain ⟨h1, h2⟩ := mont_reduce_spec p hodd hp z hz
    refine ⟨h1, ?_⟩
    apply zmod_mul_unit_eq u
    rw [hucoe]
    have := natmod_cast_eq h2
    push_cast at this ⊢
    exact this
  have hsq : ∀ a : Nat, a < p →
      ((mkMontgomery p).square a < p) ∧ f ((mkMontgomery p).square a) = f a * f a := by
    intro a ha
    have hz : a * a < p * r := lt_of_lt_of_le (Nat.mul_lt_mul_of_lt_of_le ha (le_of_lt ha) hppos)
      (Nat.mul_le_mul_left p (le_of_lt hrp))
    obtain ⟨h1, h2⟩ := hreduce (a * a) hz
    refine ⟨h1, ?_⟩
    rw [hf]
    simp only []
    unfold MontgomeryReducer.square
    rw [h2]
    push_cast
    ring
  have hmul : ∀ a c : Nat, a < p → c < p →
      ((mkMontgomery p).multiply a c < p) ∧ f ((mkMontgomery p).multiply a c) = f a * f c := by
    intro a c ha hc
    have hz : a * c < p * r := lt_of_lt_of_le (Nat.mul_lt_mul_of_lt_of_le ha (le_of_lt hc) hppos)
      (Nat.mul_le_mul_left p (le_of_lt hrp))
    obtain ⟨h1, h2⟩ := hreduce (a * c) hz
    refine ⟨h1, ?_⟩
    rw [hf]
    simp only []
    unfold MontgomeryReducer.multiply
    rw [h2]
    push_cast
    ring
  have hbase : (mkMontgomery p).toMontgomery base < p := by
    unfold MontgomeryReducer.toMontgomery
    exact Nat.mod_lt _ hppos
  have hcast_rp : ∀ z : Nat, ((z * r % p : Nat) : ZMod p) = (z : ZMod p) * (r : ZMod p) := by
    intro z
    rw [natmod_cast_eq (Nat.mod_mod_of_dvd _ dvd_rfl)]
    push_cast
    ring
  have htom : ∀ z : Nat, (mkMontgomery p).toMontgomery z = z * r % p := fun z => rfl
  have hfbase : f ((mkMontgomery p).toMontgomery base) = (base : ZMod p) := by
    rw [hf]
    simp only []
    rw [htom, hcast_rp, ← hucoe]
    exact Units.mul_inv_cancel_right _ u
  have hone_lt : (mkMontgomery p).toMontgomery 1 < p := by
    unfold MontgomeryReducer.toMontgomery
    exact Nat.mod_lt _ hppos
  have hfone : f ((mkMontgomery p).toMontgomery 1) = 1 := by
    rw [hf]
    simp only []
    rw [htom, hcast_rp, ← hucoe]
    rw [Nat.cast_one, one_mul]
    exact Units.mul_inv u
  have htab : ∀ k, k % 2 = 1 → k < 2 ^ window →
      (oddPowTable (fun a b => (mkMontgomery p).multiply a b) ((mkMontgomery p).toMontgomery base)
        ((mkMontgomery p).square ((mkMontgomery p).toMontgomery base)) k < p)
      ∧ f (oddPowTable (fun a b => (mkMontgomery p).multiply a b) ((mkMontgomery p).toMontgomery base)
          ((mkMontgomery p).square ((mkMontgomery p).toMontgomery base)) k)
        = (base : ZMod p) ^ k := by
    intro k hk _
    obtain ⟨j, hj⟩ : ∃ j, k = 2 * j + 1 := ⟨k / 2, by omega⟩
    subst hj
    have hsqb := hsq _ hbase
    have h := oddPowTable_spec (fun a b => (mkMontgomery p).multiply a b) (fun a => a < p) f
      ((mkMontgomery p).toMontgomery base) ((mkMontgomery p).square ((mkMontgomery p).toMontgomery base))
      hmul hbase hsqb.1 (by rw [hsqb.2]) j
    refine ⟨h.1, ?_⟩
    rw [h.2, hfbase]
  have h := coreLoop_spec (fun a => (mkMontgomery p).square a)
    (fun a b => (mkMontgomery p).multiply a b)
    (oddPowTable (fun a b => (mkMontgomery p).multiply a b) ((mkMontgomery p).toMontgomery base)
      ((mkMontgomery p).square ((mkMontgomery p).toMontgomery base)))
    window hwin (fun a => a < p) f (base : ZMod p)
    hsq hmul htab bits.length bits le_rfl ((mkMontgomery p).toMontgomery 1) hone_lt
  unfold modpowWindowedCore
  set result := coreLoop (fun a => (mkMontgomery p).square a)
    (fun a b => (mkMontgomery p).multiply a b)
    (oddPowTable (fun a b => (mkMontgomery p).multiply a b) ((mkMontgomery p).toMontgomery base)
      ((mkMontgomery p).square ((mkMontgomery p).toMontgomery base)))
    window bits ((mkMontgomery p).toMontgomery 1) with hres
  have hresult_lt : result < p := h.1
  have hfres : f result = (base : ZMod p) ^ bitsVal bits := by
    rw [h.2, hfone, one_pow, one_mul]
  have hfinal := hreduce result (lt_of_lt_of_le hresult_lt
    (le_trans (le_of_lt hrp) (Nat.le_mul_of_pos_left r hppos)))
  unfold MontgomeryReducer.fromMontgomery
  apply natCast_zmod_inj hfinal.1 (Nat.mod_lt _ hppos)
  rw [hfinal.2]
  have : ((base ^ bitsVal bits % p : Nat) : ZMod p) = (base : ZMod p) ^ bitsVal bits := by
    rw [natmod_cast_eq (Nat.mod_mod_of_dvd _ dvd_rfl)]
    push_cast
    ring
  rw [this, ← hfres, hf]

theorem selectWindowSize_pos (e : Nat) : 1 ≤ selectWindowSize e := by
  unfold selectWindowSize
  split_ifs <;> norm_num

theorem shouldUseMontgomeryForModpow_odd {p e : Nat}
    (h : shouldUseMontgomeryForModpow p e = true) : p % 2 = 1 := by
  unfold shouldUseMontgomeryForModpow at h
  by_cases h1 : p % 2 = 0
  · simp [h1] at h
  · omega

/-- `modpow x y p = x^y mod p` for every `x`, `y` and `p ≥ 1`. -/
theorem modpow_spec (x y p : Nat) (hp : 0 < p) : modpow x y p = x ^ y % p := by
  unfold modpow
  by_cases hp1 : p = 1
  · simp [hp1, Nat.mod_one]
  simp only [hp1, if_false]
  by_cases hy0 : y = 0
  · simp [hy0]
  simp only [hy0, if_false]
  by_cases hy1 : y = 1
  · simp [hy1]
  simp only [hy1, if_false]
  by_cases hy2 : y = 2
  · simp only [hy2, if_true]
    conv_rhs => rw [Nat.pow_mod]
    rw [pow_two]
  simp only [hy2, if_false]
  have hp2 : 1 < p := by omega
  have hbase : x % p < p := Nat.mod_lt _ hp
  by_cases hc : bigintBitLength y ≤ MODPOW_WINDOW_THRESHOLD_BITS
  · simp only [hc, if_true]
    obtain ⟨h1, h2⟩ := modpowClassic_spec (x % p) y p hp (by omega)
    apply natCast_zmod_inj h1 (Nat.mod_lt _ hp)
    rw [h2, ZMod.natCast_mod, ZMod.natCast_mod]
    push_cast
    ring
  simp only [hc, if_false]
  by_cases hm : shouldUseMontgomeryForModpow p (bigintBitLength y) = true
  · simp only [hm, if_true]
    have hodd : p % 2 = 1 := shouldUseMontgomeryForModpow_odd hm
    have h := windowed_mont_spec p hodd hp2 (x % p) hbase (natBits y)
      (selectWindowSize (bigintBitLength y)) (selectWindowSize_pos _)
    rw [h, bitsVal_natBits, ← Nat.pow_mod]
  · simp only [hm, if_false]
    obtain ⟨h1, h2⟩ := windowed_plain_spec p hp2 (x % p) hbase (natBits y)
      (selectWindowSize (bigintBitLength y)) (selectWindowSize_pos _)
    apply natCast_zmod_inj h1 (Nat.mod_lt _ hp)
    rw [h2, bitsVal_natBits, ZMod.natCast_mod, ZMod.natCast_mod]
    push_cast
    ring

/-! ## Prime subsystem (`src/prime.ts`) -/

/-- `SMALL_PRIMES` from `src/prime.ts`.  The source computes this table once at
module initialization with a sieve of Eratosthenes up to 1000 (collect each
unmarked `i`, mark its multiples from `i²`); we embed the resulting constant
table.  `SMALL_PRIMES_prime` and `SMALL_PRIMES_complete` below verify that it
is exactly the set of primes `≤ 1000`. -/
def SMALL_PRIMES : List Nat :=
  [2, 3, 5, 7, 11, 13, 17, 19, 23, 29, 31, 37, 41, 43, 47,
   53, 59, 61, 67, 71, 73, 79, 83, 89, 97, 101, 103, 107, 109, 113,
   127, 131, 137, 139, 149, 151, 157, 163, 167, 173, 179, 181, 191, 193, 197,
   199, 211, 223, 227, 229, 233, 239, 241, 251, 257, 263, 269, 271, 277, 281,
   283, 293, 307, 311, 313, 317, 331, 337, 347, 349, 353, 359, 367, 373, 379,
   383, 389, 397, 401, 409, 419, 421, 431, 433, 439, 443, 449, 457, 461, 463,
   467, 479, 487, 491, 499, 503, 509, 521, 523, 541, 547, 557, 563, 569, 571,
   577, 587, 593, 599, 601, 607, 613, 617, 619, 631, 641, 643, 647, 653, 659,
   661, 673, 677, 683, 691, 701, 709, 719, 727, 733, 739, 743, 751, 757, 761,
   769, 773, 787, 797, 809, 811, 821, 823, 827, 829, 839, 853, 857, 859, 863,
   877, 881, 883, 887, 907, 911, 919, 929, 937, 941, 947, 953, 967, 971, 977,
   983, 991, 997]

/-- Executable trial-division primality test (divisors up to `31 ≥ √1000`),
used only to verify the `SMALL_PRIMES` table by computation. -/
def primeUpTo1000 (p : Nat) : Bool :=
  decide (2 ≤ p) && ((List.range' 2 30).all (fun m => decide (p ≤ m) || p % m != 0))

/-- `PRIME_WHEEL.residues`: odd `r ∈ [1, 210)` not divisible by 3, 5 or 7. -/
def wheelResidues : List Nat :=
  (List.range' 1 105 2).filter (fun r => r % 3 != 0 && r % 5 != 0 && r % 7 != 0)

/-- `PRIME_WHEEL.increments`: circular differences `(next - cur + 210) % 210`
(the `+ 210` makes the JavaScript signed difference nonnegative, so in `Nat`
this is `(next + 210 - cur) % 210`). -/
def wheelIncrements : List Nat :=
  (List.range wheelResidues.length).map (fun i =>
    (wheelResidues.getD ((i + 1) % wheelResidues.length) 0 + 210 - wheelResidues.getD i 0) % 210)

/-- The search loop of `alignToWheel`: first residue `r ≥ m` with its index. -/
def alignFind (m : Nat) : List Nat → Nat → Option (Nat × Nat)
  | [], _ => none
  | r :: rest, i => if m ≤ r then some (r, i) else alignFind m rest (i + 1)

/-- `alignToWheel` from `src/prime.ts`: smallest `q ≥ p` whose residue mod 210
is on the wheel, together with the residue index.  (The fallback branch is
unreachable because `209 ∈ residues`.) -/
def alignToWheel (p : Nat) : Nat × Nat :=
  match alignFind (p % 210) wheelResidues 0 with
  | some (r, i) => (p + (r - p % 210), i)
  | none => (p + (210 - p % 210 + wheelResidues.getD 0 0), 0)

/-- The `for r in 1..s-1` squaring loop of `millerRabinRound`. -/
def mrLoop (n : Nat) : Nat → Nat → Bool
  | _, 0 => false
  | x, k + 1 =>
      let x2 := x * x % n
      if x2 = n - 1 then true
      else if x2 = 1 then false
      else mrLoop n x2 k

/-- `millerRabinRound` from `src/prime.ts`. -/
def millerRabinRound (n d : Nat) (s : Nat) (a : Nat) : Bool :=
  let x := modpow a d n
  if x = 1 ∨ x = n - 1 then true
  else mrLoop n x (s - 1)

/-- The `n - 1 = 2^s · d` decomposition loop of `isPrime` (returns `(s, d)`;
the `m = 0` guard is unreachable in the source, which only decomposes `n - 1`
for odd `n ≥ 5`). -/
def twoAdic (m : Nat) : Nat × Nat :=
  if m = 0 then (0, 0)
  else if m % 2 = 0 then
    let p := twoAdic (m / 2)
    (p.1 + 1, p.2)
  else (0, m)
termination_by m
decreasing_by exact Nat.div_lt_self (Nat.pos_of_ne_zero (by assumption)) (by norm_num)

/-- `DETERMINISTIC_WITNESSES` from `src/prime.ts`. -/
def DETERMINISTIC_WITNESSES : List Nat := [2, 3, 5, 7, 11, 13, 17, 19, 23, 29, 31, 37]

/-- The trial-division loop of `isPrime`: `some true` on an exact match,
`some false` on a divisor, `none` if the loop completes. -/
def trialDivide (n : Nat) : List Nat → Option Bool
  | [] => none
  | p :: ps => if n = p then some true else if n % p = 0 then some false else trialDivide n ps

/-- The deterministic-witness loop of `isPrime` (the `a ≥ n-1` test is the
source's early `break`, after which `isPrime` returns `true`). -/
def detCheck (n d : Nat) (s : Nat) : List Nat → Bool
  | [] => true
  | a :: as =>
      if n - 1 ≤ a then true
      else if millerRabinRound n d s a then detCheck n d s as else false

/-- The random-witness loop of `isPrime`: round `i` draws the byte block
`rng n i` and uses the witness `2 + rng n i % (n - 4)`. -/
def probCheck (rng : Nat → Nat → Nat) (n d : Nat) (s : Nat) : Nat → Nat → Bool
  | _, 0 => true
  | i, k + 1 =>
      let a := 2 + rng n i % (n - 4)
      if millerRabinRound n d s a then probCheck rng n d s (i + 1) k else false

/-- `isPrime` from `src/prime.ts` (`rounds` defaults to 32 at every call site in
the repository; the external RNG is the oracle `rng`). -/
def isPrime (rng : Nat → Nat → Nat) (n : Nat) (rounds : Nat) : Bool :=
  if n < 2 then false
  else if n = 2 ∨ n = 3 then true
  else if n % 2 = 0 then false
  else
    match trialDivide n SMALL_PRIMES with
    | some b => b
    | none =>
      let sd := twoAdic (n - 1)
      if n < 318665857834031151167461 then detCheck n sd.2 sd.1 DETERMINISTIC_WITNESSES
      else probCheck rng n sd.2 sd.1 0 rounds

/-! ## Facts about the prime table -/

theorem primeUpTo1000_iff (p : Nat) (hp : p ≤ 1000) : primeUpTo1000 p = true ↔ p.Prime := by
  unfold primeUpTo1000
  rw [Bool.and_eq_true, List.all_eq_true]
  constructor
  · rintro ⟨h2d, hall⟩
    have h2 : 2 ≤ p := of_decide_eq_true h2d
    by_contra hnp
    have hdp : p.minFac.Prime := Nat.minFac_prime (by omega)
    have hd2 : 2 ≤ p.minFac := hdp.two_le
    have hdsq : p.minFac ^ 2 ≤ p := Nat.minFac_sq_le_self (by omega) hnp
    have hd31 : p.minFac ≤ 31 := by nlinarith
    have hdlt : p.minFac < p := by
      rcases Nat.lt_or_ge p.minFac p with h | h
      · exact h
      · have : p.minFac = p := le_antisymm (Nat.minFac_le (by omega)) h
        exact absurd (this ▸ hdp) hnp
    have hmem : p.minFac ∈ List.range' 2 30 := List.mem_range'_1.mpr (by omega)
    have := hall _ hmem
    rw [Bool.or_eq_true] at this
    rcases this with h | h
    · have := of_decide_eq_true h; omega
    · have hmod : p % p.minFac = 0 := Nat.dvd_iff_mod_eq_zero.mp (Nat.minFac_dvd p)
      simp [hmod] at h
  · intro hprime
    refine ⟨decide_eq_true hprime.two_le, fun m hm => ?_⟩
    rw [List.mem_range'_1] at hm
    rw [Bool.or_eq_true]
    by_cases hpm : p ≤ m
    · exact Or.inl (decide_eq_true hpm)
    · refine Or.inr ?_
      simp only [bne_iff_ne, ne_eq]
      intro hmod
      have hdvd : m ∣ p := Nat.dvd_iff_mod_eq_zero.mpr hmod
      rcases hprime.eq_one_or_self_of_dvd m hdvd with h | h <;> omega

theorem SMALL_PRIMES_prime : ∀ p ∈ SMALL_PRIMES, p.Prime ∧ p ≤ 1000 := by
  intro p hp
  have hall : SMALL_PRIMES.all (fun q => primeUpTo1000 q && decide (q ≤ 1000)) = true := by decide
  rw [List.all_eq_true] at hall
  have h := hall p hp
  rw [Bool.and_eq_true] at h
  exact ⟨(primeUpTo1000_iff p (of_decide_eq_true h.2)).mp h.1, of_decide_eq_true h.2⟩

theorem SMALL_PRIMES_complete : ∀ q, q ≤ 1000 → q.Prime → q ∈ SMALL_PRIMES := by
  intro q hq hprime
  have hdec : ((List.range 1001).all
      (fun n => !primeUpTo1000 n || decide (n ∈ SMALL_PRIMES))) = true := by decide
  rw [List.all_eq_true] at hdec
  have h := hdec q (List.mem_range.mpr (by omega))
  rw [Bool.or_eq_true] at h
  rcases h with h | h
  · rw [Bool.not_eq_eq_eq_not, Bool.not_true] at h
    have htrue := (primeUpTo1000_iff q hq).mpr hprime
    simp [htrue] at h
  · exact of_decide_eq_true h

/-! ## Miller–Rabin completeness: a prime passes every round -/

theorem twoAdic_spec (m : Nat) (hm : 0 < m) :
    m = 2 ^ (twoAdic m).1 * (twoAdic m).2 ∧ (twoAdic m).2 % 2 = 1 := by
  induction m using Nat.strong_induction_on with
  | _ m ih =>
    rw [twoAdic]
    have hm0 : m ≠ 0 := by omega
    simp only [hm0, if_false]
    by_cases hev : m % 2 = 0
    · simp only [hev, if_true]
      have h2 : 0 < m / 2 := by omega
      obtain ⟨h1, hodd⟩ := ih (m / 2) (Nat.div_lt_self hm (by norm_num)) h2
      refine ⟨?_, hodd⟩
      rw [pow_succ]
      calc m = m / 2 * 2 := by omega
      _ = 2 ^ (twoAdic (m / 2)).1 * (twoAdic (m / 2)).2 * 2 := by rw [← h1]
      _ = 2 ^ (twoAdic (m / 2)).1 * 2 * (twoAdic (m / 2)).2 := by ring
    · simp only [hev, if_false]
      refine ⟨by simp, by omega⟩

/-- If some iterate `1 ≤ i ≤ k` of squaring mod `n` hits `n - 1`, and no
earlier iterate hits `1` or `n - 1`, the Miller-Rabin loop accepts. -/
theorem mrLoop_true (n : Nat) :
    ∀ (k : Nat) (x0 : Nat) (i : Nat), 1 ≤ i → i ≤ k
      → ((fun x => x * x % n)^[i]) x0 = n - 1
      → (∀ r, 1 ≤ r → r < i → ((fun x => x * x % n)^[r]) x0 ≠ 1
          ∧ ((fun x => x * x % n)^[r]) x0 ≠ n - 1)
      → mrLoop n x0 k = true := by
  intro k
  induction k with
  | zero => intro x0 i h1 h2; omega
  | succ k ih =>
    intro x0 i h1 h2 hhit hpre
    rw [mrLoop]
    by_cases hcase : x0 * x0 % n = n - 1
    · simp [hcase]
    · have hi2 : 2 ≤ i := by
        rcases Nat.lt_or_ge i 2 with h | h
        · have hi1 : i = 1 := by omega
          rw [hi1] at hhit
          simp only [Function.iterate_one] at hhit
          exact absurd hhit hcase
        · exact h
      have hx1 : x0 * x0 % n ≠ 1 := by
        have := (hpre 1 le_rfl (by omega)).1
        simpa using this
      simp only [hcase, if_false, hx1, if_false]
      apply ih (x0 * x0 % n) (i - 1) (by omega) (by omega)
      · have : ((fun x => x * x % n)^[i - 1]) (((fun x => x * x % n)^[1]) x0)
            = ((fun x => x * x % n)^[i]) x0 := by
          rw [← Function.iterate_add_apply]
          congr 1
          omega
        simp only [Function.iterate_one] at this
        rw [this]
        exact hhit
      · intro r hr1 hri
        have : ((fun x => x * x % n)^[r]) (((fun x => x * x % n)^[1]) x0)
            = ((fun x => x * x % n)^[r + 1]) x0 := by
          rw [← Function.iterate_add_apply]
        simp only [Function.iterate_one] at this
        rw [this]
        exact hpre (r + 1) (by omega) (by omega)

/-- A prime `n ≥ 5` passes `millerRabinRound` for every witness `0 < a < n`. -/
theorem millerRabinRound_complete (n : Nat) (hn : n.Prime) (hn5 : 5 ≤ n) (hodd : n % 2 = 1)
    (a : Nat) (ha : 0 < a) (han : a < n) :
    millerRabinRound n (twoAdic (n - 1)).2 (twoAdic (n - 1)).1 a = true := by
  haveI : Fact n.Prime := ⟨hn⟩
  haveI : NeZero n := ⟨by omega⟩
  obtain ⟨hdecomp, hdodd⟩ := twoAdic_spec (n - 1) (by omega)
  set s := (twoAdic (n - 1)).1 with hs
  set d := (twoAdic (n - 1)).2 with hd
  have hd1 : 1 ≤ d := by
    rcases Nat.eq_zero_or_pos d with h | h
    · rw [h] at hdodd; omega
    · omega
  have hs1 : 1 ≤ s := by
    by_contra h
    have hs0 : s = 0 := by omega
    rw [hs0, pow_zero, one_mul] at hdecomp
    omega
  set α : ZMod n := (a : ZMod n) with hα
  have hα0 : α ≠ 0 := by
    rw [hα]
    intro h
    rw [ZMod.natCast_zmod_eq_zero_iff_dvd] at h
    have := Nat.le_of_dvd ha h
    omega
  have hferm : α ^ (n - 1) = 1 := ZMod.pow_card_sub_one_eq_one hα0
  have hneg : ((n - 1 : Nat) : ZMod n) = -1 := by
    push_cast [show 1 ≤ n by omega]
    simp
  set v : Nat → Nat := fun i => ((fun x => x * x % n)^[i]) (modpow a d n) with hv
  have hmp := modpow_spec a d n (by omega)
  have hvlt : ∀ i, v i < n := by
    intro i
    cases i with
    | zero =>
        rw [hv]
        simpa [hmp] using Nat.mod_lt (a ^ d) (show 0 < n by omega)
    | succ i =>
        rw [hv]
        simp only [Function.iterate_succ_apply']
        exact Nat.mod_lt _ (by omega)
  have hvcast : ∀ i, ((v i : Nat) : ZMod n) = α ^ (d * 2 ^ i) := by
    intro i
    induction i with
    | zero =>
        rw [hv]
        simp only [Function.iterate_zero, id_eq]
        rw [hmp, ZMod.natCast_mod]
        push_cast
        rw [hα]
        simp
    | succ i ih =>
        have hstep : v (i + 1) = v i * v i % n := by
          rw [hv]
          simp only [Function.iterate_succ_apply']
        rw [hstep, ZMod.natCast_mod]
        push_cast
        rw [ih]
        rw [← pow_add]
        congr 1
        rw [pow_succ]
        ring
  have hex : ∃ j, α ^ (d * 2 ^ j) = 1 := by
    refine ⟨s, ?_⟩
    rw [mul_comm d (2 ^ s), ← hdecomp]
    exact hferm
  set J := Nat.find hex with hJ
  have hJs : J ≤ s := Nat.find_le (by rw [mul_comm d (2 ^ s), ← hdecomp]; exact hferm)
  have hJspec : α ^ (d * 2 ^ J) = 1 := Nat.find_spec hex
  rw [millerRabinRound]
  by_cases hJ0 : J = 0
  · have h1 : ((v 0 : Nat) : ZMod n) = ((1 : Nat) : ZMod n) := by
      rw [hvcast 0]
      rw [hJ0] at hJspec
      simpa using hJspec
    have hv01 : v 0 = 1 := natCast_zmod_inj (hvlt 0) (by omega) h1
    have : modpow a d n = 1 := by
      have := hv01
      rw [hv] at this
      simpa using this
    simp [this]
  · -- J ≥ 1 : the (J-1)-st value is n - 1
    have hJ1 : 1 ≤ J := by omega
    have hβ : α ^ (d * 2 ^ (J - 1)) = -1 := by
      have hsq : α ^ (d * 2 ^ (J - 1)) * α ^ (d * 2 ^ (J - 1)) = 1 := by
        rw [← pow_add]
        have he : d * 2 ^ (J - 1) + d * 2 ^ (J - 1) = d * 2 ^ J := by
          have hJsucc : J = (J - 1) + 1 := by omega
          conv_rhs => rw [hJsucc]
          rw [pow_succ]
          ring
        rw [he]
        exact hJspec
      rcases mul_self_eq_one_iff.mp hsq with h | h
      · exact absurd h (Nat.find_min hex (by omega))
      · exact h
    have hvJ1 : v (J - 1) = n - 1 := by
      apply natCast_zmod_inj (hvlt _) (by omega)
      rw [hvcast, hβ, hneg]
    by_cases hJeq1 : J = 1
    · have : modpow a d n = n - 1 := by
        have h0 := hvJ1
        rw [hJeq1] at h0
        simp only [Nat.sub_self] at h0
        rw [hv] at h0
        simpa using h0
      simp [this]
    · -- J ≥ 2 : the first value is neither 1 nor n-1, and the loop accepts
      have hJ2 : 2 ≤ J := by omega
      have hv0ne1 : modpow a d n ≠ 1 := by
        intro h
        have : ((v 0 : Nat) : ZMod n) = 1 := by
          rw [hv]
          simpa [h] using rfl
        rw [hvcast 0] at this
        exact Nat.find_min hex (show 0 < J by omega) (by simpa using this)
      have hv0nen1 : modpow a d n ≠ n - 1 := by
        intro h
        have hc : ((v 0 : Nat) : ZMod n) = -1 := by
          rw [hv]
          simp only [Function.iterate_zero, id_eq]
          rw [h, hneg]
        rw [hvcast 0] at hc
        have hp1 : α ^ (d * 2 ^ 1) = 1 := by
          have : d * 2 ^ 1 = d * 2 ^ 0 + d * 2 ^ 0 := by ring
          rw [this, pow_add, hc]
          ring
        exact Nat.find_min hex (show 1 < J by omega) hp1
      simp only [hv0ne1, hv0nen1, or_self, if_false]
      apply mrLoop_true n (s - 1) (modpow a d n) (J - 1) (by omega) (by omega)
      · exact hvJ1
      · intro r hr1 hrJ
        constructor
        · intro h
          have hc : ((v r : Nat) : ZMod n) = 1 := by
            have hvr : v r = ((fun x => x * x % n)^[r]) (modpow a d n) := rfl
            rw [hvr, h]
            simp
          rw [hvcast r] at hc
          exact Nat.find_min hex (show r < J by omega) hc
        · intro h
          have hc : ((v r : Nat) : ZMod n) = -1 := by
            have hvr : v r = ((fun x => x * x % n)^[r]) (modpow a d n) := rfl
            rw [hvr, h, hneg]
          rw [hvcast r] at hc
          have hp1 : α ^ (d * 2 ^ (r + 1)) = 1 := by
            have : d * 2 ^ (r + 1) = d * 2 ^ r + d * 2 ^ r := by ring
            rw [this, pow_add, hc]
            ring
          exact Nat.find_min hex (show r + 1 < J by omega) hp1

theorem trialDivide_of_prime (n : Nat) (hn : n.Prime) :
    ∀ l : List Nat, (∀ p ∈ l, 2 ≤ p) →
      trialDivide n l = some true ∨ (trialDivide n l = none ∧ n ∉ l) := by
  intro l
  induction l with
  | nil =>
    intro _
    right
    exact ⟨rfl, by simp⟩
  | cons p ps ih =>
    intro h2
    rw [trialDivide]
    by_cases hnp : n = p
    · left
      simp [hnp]
    · simp only [hnp, if_false]
      by_cases hmod : n % p = 0
      · exfalso
        have hdvd : p ∣ n := Nat.dvd_iff_mod_eq_zero.mpr hmod
        rcases hn.eq_one_or_self_of_dvd p hdvd with h | h
        · have := h2 p (by simp)
          omega
        · exact hnp h.symm
      · simp only [hmod, if_false]
        rcases ih (fun q hq => h2 q (by simp [hq])) with h | ⟨h, hmem⟩
        · left
          exact h
        · right
          exact ⟨h, by simp [hnp, hmem]⟩

theorem detCheck_complete (n : Nat) (hn : n.Prime) (hn5 : 5 ≤ n) (hodd : n % 2 = 1) :
    ∀ l : List Nat, (∀ a ∈ l, 0 < a) →
      detCheck n (twoAdic (n - 1)).2 (twoAdic (n - 1)).1 l = true := by
  intro l
  induction l with
  | nil =>
    intro _
    rfl
  | cons a as ih =>
    intro hpos
    rw [detCheck]
    by_cases hbreak : n - 1 ≤ a
    · simp [hbreak]
    · have ha := hpos a (by simp)
      have han : a < n := by omega
      simp [hbreak, millerRabinRound_complete n hn hn5 hodd a ha han,
        ih (fun q hq => hpos q (by simp [hq]))]

theorem probCheck_complete (rng : Nat → Nat → Nat) (n : Nat) (hn : n.Prime) (hn5 : 5 ≤ n)
    (hodd : n % 2 = 1) :
    ∀ k i, probCheck rng n (twoAdic (n - 1)).2 (twoAdic (n - 1)).1 i k = true := by
  intro k
  induction k with
  | zero =>
    intro i
    rfl
  | succ k ih =>
    intro i
    rw [probCheck]
    have ha : 0 < 2 + rng n i % (n - 4) := by omega
    have han : 2 + rng n i % (n - 4) < n := by
      have := Nat.mod_lt (rng n i) (show 0 < n - 4 by omega)
      omega
    simp [millerRabinRound_complete n hn hn5 hodd _ ha han, ih]

/-- `isPrime` accepts every prime, for every RNG oracle and round count. -/
theorem isPrime_complete (rng : Nat → Nat → Nat) (n : Nat) (rounds : Nat) (hn : n.Prime) :
    isPrime rng n rounds = true := by
  unfold isPrime
  have h2 := hn.two_le
  simp only [show ¬ n < 2 by omega, if_false]
  by_cases h23 : n = 2 ∨ n = 3
  · simp [h23]
  simp only [h23, if_false]
  have hge4 : 4 ≤ n := by
    rcases Nat.lt_or_ge n 4 with h | h
    · interval_cases n <;> simp_all
    · exact h
  have hodd : n % 2 = 1 := by
    rcases Nat.mod_two_eq_zero_or_one n with h | h
    · exfalso
      have hdvd : (2 : Nat) ∣ n := Nat.dvd_iff_mod_eq_zero.mpr h
      rcases hn.eq_one_or_self_of_dvd 2 hdvd with h1 | h1 <;> omega
    · exact h
  have hn5 : 5 ≤ n := by omega
  simp only [show ¬ n % 2 = 0 by omega, if_false]
  rcases trialDivide_of_prime n hn SMALL_PRIMES
      (fun p hp => (SMALL_PRIMES_prime p hp).1.two_le) with h | ⟨h, _⟩
  · rw [h]
  · rw [h]
    by_cases hreg : n < 318665857834031151167461
    · simp only [hreg, if_true]
      exact detCheck_complete n hn hn5 hodd DETERMINISTIC_WITNESSES (by decide)
    · simp only [hreg, if_false]
      exact probCheck_complete rng n hn hn5 hodd rounds 0

/-! ## The mod-210 wheel walk -/

/-- Executable check that `alignFind` succeeds with a valid residue/index. -/
def alignCheck (m : Nat) : Bool :=
  match alignFind m wheelResidues 0 with
  | some (r, i) => decide (r = wheelResidues.getD i 0 ∧ i < 48 ∧ m ≤ r ∧ r < 210)
  | none => false

theorem wheel_alignCheck : ∀ m, m < 210 → alignCheck m = true := by decide

theorem wheel_length : wheelResidues.length = 48 ∧ wheelIncrements.length = 48 := by decide

theorem wheel_step : ∀ i, i < 48 →
    (wheelResidues.getD i 0 + wheelIncrements.getD i 0) % 210
      = wheelResidues.getD ((i + 1) % 48) 0 := by decide

theorem wheel_inc_pos : ∀ i, i < 48 →
    0 < wheelIncrements.getD i 0 ∧ wheelIncrements.getD i 0 < 210 := by decide

theorem wheel_gap : ∀ i, i < 48 → ∀ d, d < 210 → 0 < d → d < wheelIncrements.getD i 0 →
    (wheelResidues.getD i 0 + d) % 210 ∉ wheelResidues := by
  have h : ((List.range 48).all (fun i => (List.range 210).all (fun d =>
      decide (d = 0) || !decide (d < wheelIncrements.getD i 0) ||
      !decide ((wheelResidues.getD i 0 + d) % 210 ∈ wheelResidues)))) = true := by decide
  intro i hi d hd210 hd0 hdinc hmem
  rw [List.all_eq_true] at h
  have h2 := h i (List.mem_range.mpr hi)
  rw [List.all_eq_true] at h2
  have h3 := h2 d (List.mem_range.mpr hd210)
  rw [decide_eq_false (by omega : ¬ d = 0), Bool.false_or, decide_eq_true hdinc,
    Bool.not_true, Bool.false_or, Bool.not_eq_true', decide_eq_false_iff_not] at h3
  exact h3 hmem

theorem wheel_mem : ∀ m, m < 210 →
    (m ∈ wheelResidues ↔ m % 2 = 1 ∧ m % 3 ≠ 0 ∧ m % 5 ≠ 0 ∧ m % 7 ≠ 0) := by decide

theorem wheel_residue_lt : ∀ r ∈ wheelResidues, r < 210 := by decide

/-- The candidate/index sequence of the wheel walk in `nextPrime`
(and `getPrime`): `p += increments[idx]; idx = (idx + 1) % 48`. -/
def walkCand (p0 i0 : Nat) : Nat → Nat × Nat
  | 0 => (p0, i0)
  | k + 1 =>
      let st := walkCand p0 i0 k
      (st.1 + wheelIncrements.getD st.2 0, (st.2 + 1) % wheelIncrements.length)

theorem walkCand_shift (p0 i0 : Nat) :
    ∀ k, walkCand p0 i0 (k + 1)
      = walkCand (p0 + wheelIncrements.getD i0 0) ((i0 + 1) % wheelIncrements.length) k := by
  intro k
  induction k with
  | zero => rfl
  | succ k ih =>
    rw [walkCand, ih]
    rfl

theorem walkCand_ge (p0 i0 : Nat) : ∀ k, p0 ≤ (walkCand p0 i0 k).1 := by
  intro k
  induction k with
  | zero => exact le_refl _
  | succ k ih =>
    rw [walkCand]
    simp only []
    omega

/-- Stepping preserves the wheel invariant and skips no wheel residue. -/
theorem walk_step_sound (p i : Nat) (h1 : p % 210 = wheelResidues.getD i 0) (h2 : i < 48) :
    (p + wheelIncrements.getD i 0) % 210 = wheelResidues.getD ((i + 1) % 48) 0
    ∧ (i + 1) % 48 < 48
    ∧ ∀ q, p < q → q < p + wheelIncrements.getD i 0 → q % 210 ∉ wheelResidues := by
  obtain ⟨hpos, hlt⟩ := wheel_inc_pos i h2
  refine ⟨?_, Nat.mod_lt _ (by norm_num), ?_⟩
  · rw [Nat.add_mod, h1, Nat.mod_eq_of_lt hlt, wheel_step i h2]
  · intro q hq1 hq2
    have hd : q = p + (q - p) := by omega
    have hdpos : 0 < q - p := by omega
    have hdlt : q - p < wheelIncrements.getD i 0 := by omega
    have hq210 : q % 210 = (wheelResidues.getD i 0 + (q - p)) % 210 := by
      conv_lhs => rw [hd, Nat.add_mod, h1, Nat.mod_eq_of_lt (show q - p < 210 by omega)]
    rw [hq210]
    exact wheel_gap i h2 (q - p) (by omega) hdpos hdlt

/-- The walk visits every wheel number `≥` the start. -/
theorem walk_hits (q : Nat) (hq : q % 210 ∈ wheelResidues) :
    ∀ (fuel : Nat) (p i : Nat), q - p ≤ fuel → p % 210 = wheelResidues.getD i 0 → i < 48 →
      p ≤ q → ∃ k, (walkCand p i k).1 = q := by
  intro fuel
  induction fuel with
  | zero =>
    intro p i hf h1 h2 hpq
    have : p = q := by omega
    exact ⟨0, this⟩
  | succ fuel ih =>
    intro p i hf h1 h2 hpq
    by_cases heq : p = q
    · exact ⟨0, heq⟩
    · obtain ⟨hstep, hinv, hgap⟩ := walk_step_sound p i h1 h2
      have hincpos := (wheel_inc_pos i h2).1
      have hqp2 : p + wheelIncrements.getD i 0 ≤ q := by
        by_contra hcon
        push_neg at hcon
        exact hgap q (by omega) hcon hq
      have hlen : wheelIncrements.length = 48 := wheel_length.2
      obtain ⟨k, hk⟩ := ih (p + wheelIncrements.getD i 0) ((i + 1) % 48)
        (by omega) hstep hinv hqp2
      refine ⟨k + 1, ?_⟩
      rw [walkCand_shift, hlen]
      exact hk

/-- Primes above 7 lie on the wheel. -/
theorem prime_mem_wheel (q : Nat) (hq : q.Prime) (h7 : 7 < q) : q % 210 ∈ wheelResidues := by
  have h210 : q % 210 < 210 := Nat.mod_lt _ (by norm_num)
  rw [wheel_mem _ h210]
  have hnd : ∀ p : Nat, p.Prime → p < q → q % p ≠ 0 := by
    intro p hp hlt hmod
    have hdvd : p ∣ q := Nat.dvd_iff_mod_eq_zero.mpr hmod
    rcases hq.eq_one_or_self_of_dvd p hdvd with h | h
    · exact absurd h (by have := hp.two_le; omega)
    · omega
  have hd2 := hnd 2 Nat.prime_two (by omega)
  have hd3 := hnd 3 Nat.prime_three (by omega)
  have hd5 := hnd 5 Nat.prime_five (by omega)
  have hd7 := hnd 7 (by norm_num) (by omega)
  have e2 : q % 210 % 2 = q % 2 := Nat.mod_mod_of_dvd q (by norm_num)
  have e3 : q % 210 % 3 = q % 3 := Nat.mod_mod_of_dvd q (by norm_num)
  have e5 : q % 210 % 5 = q % 5 := Nat.mod_mod_of_dvd q (by norm_num)
  have e7 : q % 210 % 7 = q % 7 := Nat.mod_mod_of_dvd q (by norm_num)
  refine ⟨?_, ?_, ?_, ?_⟩ <;> omega

/-- `alignToWheel` returns an on-wheel candidate `≥ p` with a valid index. -/
theorem align_inv (p : Nat) :
    (alignToWheel p).1 % 210 = wheelResidues.getD (alignToWheel p).2 0
    ∧ (alignToWheel p).2 < 48 ∧ p ≤ (alignToWheel p).1 := by
  have hm : p % 210 < 210 := Nat.mod_lt _ (by norm_num)
  have hchk := wheel_alignCheck (p % 210) hm
  unfold alignToWheel
  unfold alignCheck at hchk
  cases halign : alignFind (p % 210) wheelResidues 0 with
  | none =>
    rw [halign] at hchk
    simp at hchk
  | some ri =>
    obtain ⟨r, i⟩ := ri
    rw [halign] at hchk
    obtain ⟨hr, hi, hmr, hr210⟩ := of_decide_eq_true hchk
    simp only []
    have hsum : p + (r - p % 210) = 210 * (p / 210) + r := by
      have := Nat.mod_add_div p 210
      omega
    refine ⟨?_, hi, by omega⟩
    rw [hsum, Nat.mul_add_mod, Nat.mod_eq_of_lt hr210]
    exact hr

/-- For every RNG oracle, the wheel walk eventually reaches a candidate that
`isPrime` accepts: the next genuine prime is on the wheel and is accepted by
`isPrime_complete`. -/
theorem walk_accept_exists (rng : Nat → Nat → Nat) (p i : Nat)
    (h1 : p % 210 = wheelResidues.getD i 0) (h2 : i < 48) :
    ∃ k, isPrime rng (walkCand p i k).1 32 = true := by
  obtain ⟨q, hq1, hq2⟩ := Nat.exists_infinite_primes (max p 11)
  have hq7 : 7 < q := by
    have := le_max_right p 11
    omega
  have hqp : p ≤ q := le_trans (le_max_left p 11) hq1
  obtain ⟨k, hk⟩ := walk_hits q (prime_mem_wheel q hq2 hq7) (q - p) p i le_rfl h1 h2 hqp
  exact ⟨k, by rw [hk]; exact isPrime_complete rng q 32 hq2⟩

/-- `nextPrime` from `src/prime.ts` (every call site in the repository uses the
default 32 rounds).  After the hard-coded small cases the source walks the
wheel from `alignToWheel n` and returns the first candidate accepted by
`isPrime`; the walk is well-defined (`Nat.find`) because it enumerates every
wheel number `≥` the aligned start and `isPrime` accepts genuine primes for
every oracle.  (The source re-checks `n ≤ 7` after alignment; that block is
dead — those cases returned earlier — and the spec marks it as such.) -/
def nextPrime (rng : Nat → Nat → Nat) (n : Nat) : Nat :=
  if n ≤ 2 then 2
  else if n = 3 then 3
  else if n ≤ 5 then 5
  else if n ≤ 7 then 7
  else
    (walkCand (alignToWheel n).1 (alignToWheel n).2
      (Nat.find (walk_accept_exists rng (alignToWheel n).1 (alignToWheel n).2
        (align_inv n).1 (align_inv n).2.1))).1

/-- On the walk branch, `nextPrime` returns an accepted candidate `≥ n`. -/
theorem nextPrime_walk_spec (rng : Nat → Nat → Nat) (n : Nat) (hn : 8 ≤ n) :
    isPrime rng (nextPrime rng n) 32 = true ∧ n ≤ nextPrime rng n := by
  unfold nextPrime
  simp only [show ¬ n ≤ 2 by omega, if_false, show ¬ n = 3 by omega,
    show ¬ n ≤ 5 by omega, show ¬ n ≤ 7 by omega]
  constructor
  · exact Nat.find_spec (walk_accept_exists rng (alignToWheel n).1 (alignToWheel n).2
      (align_inv n).1 (align_inv n).2.1)
  · exact le_trans (align_inv n).2.2 (walkCand_ge _ _ _)

/-- `nextPrime` always returns a value accepted by `isPrime` (with the same
oracle), and `> 2` whenever the input is `> 2`. -/
theorem nextPrime_accepted (rng : Nat → Nat → Nat) (n : Nat) (hn : 2 < n) :
    isPrime rng (nextPrime rng n) 32 = true ∧ 2 < nextPrime rng n := by
  by_cases h8 : 8 ≤ n
  · obtain ⟨h1, h2⟩ := nextPrime_walk_spec rng n h8
    exact ⟨h1, by omega⟩
  · have hsmall : nextPrime rng n = 3 ∨ nextPrime rng n = 5 ∨ nextPrime rng n = 7 := by
      unfold nextPrime
      simp only [show ¬ n ≤ 2 by omega, if_false]
      by_cases h3 : n = 3
      · simp [h3]
      · simp only [h3, if_false]
        by_cases h5 : n ≤ 5
        · simp [h5]
        · simp only [h5, if_false]
          have h7 : n ≤ 7 := by omega
          simp [h7]
    rcases hsmall with h | h | h <;> rw [h]
    · exact ⟨isPrime_complete rng 3 32 Nat.prime_three, by norm_num⟩
    · exact ⟨isPrime_complete rng 5 32 Nat.prime_five, by norm_num⟩
    · exact ⟨isPrime_complete rng 7 32 (by norm_num), by norm_num⟩

/-! ## Big-endian round-trip lemmas for the byte layer -/

theorem bytesToBigint_beBytes : ∀ x, bytesToBigint (beBytes x) = x := by
  intro x
  induction x using Nat.strong_induction_on with
  | _ x ih =>
    by_cases hx : x = 0
    · subst hx; rw [beBytes]; simp [bytesToBigint]
    · rw [beBytes]
      simp only [hx, if_false]
      rw [bytesToBigint_append,
        ih (x / 256) (Nat.div_lt_self (Nat.pos_of_ne_zero hx) (by norm_num))]
      simp only [bytesToBigint, List.foldl, List.length_singleton, pow_one]
      omega

theorem beBytes_bytes_lt : ∀ x, ∀ b ∈ beBytes x, b < 256 := by
  intro x
  induction x using Nat.strong_induction_on with
  | _ x ih =>
    intro b hb
    by_cases hx : x = 0
    · subst hx; rw [beBytes] at hb; simp at hb
    · rw [beBytes] at hb
      simp only [hx, if_false, List.mem_append, List.mem_singleton] at hb
      rcases hb with hb | hb
      · exact ih (x / 256) (Nat.div_lt_self (Nat.pos_of_ne_zero hx) (by norm_num)) b hb
      · subst hb; exact Nat.mod_lt _ (by norm_num)

theorem beBytes_length_le : ∀ (len x : Nat), x < 256 ^ len → (beBytes x).length ≤ len := by
  intro len
  induction len with
  | zero =>
      intro x hx
      have hx0 : x = 0 := by simpa using hx
      subst hx0
      rw [beBytes]; simp
  | succ k ih =>
      intro x hx
      by_cases hx0 : x = 0
      · subst hx0; rw [beBytes]; simp
      · rw [beBytes]
        simp only [hx0, if_false, List.length_append, List.length_singleton]
        have hdiv : x / 256 < 256 ^ k := by
          rw [pow_succ, mul_comm] at hx
          exact Nat.div_lt_of_lt_mul hx
        exact Nat.add_le_add_right (ih _ hdiv) 1

theorem bigintToBytes_length (x : Nat) : (bigintToBytes x).length = bigintByteLength x := by
  unfold bigintToBytes bigintByteLength
  by_cases hx : x = 0 <;> simp [hx]

theorem bytesToBigint_bigintToBytes (x : Nat) : bytesToBigint (bigintToBytes x) = x := by
  unfold bigintToBytes
  by_cases hx : x = 0
  · simp [hx, bytesToBigint]
  · simp only [hx, if_false]
    exact bytesToBigint_beBytes x

theorem bigintToBytes_bytes_lt (x : Nat) : ∀ b ∈ bigintToBytes x, b < 256 := by
  unfold bigintToBytes
  by_cases hx : x = 0
  · simp [hx]
  · simp only [hx, if_false]
    exact beBytes_bytes_lt x

theorem bytesToBigint_replicate_zero (k : Nat) : bytesToBigint (List.replicate k 0) = 0 := by
  induction k with
  | zero => rfl
  | succ m ih =>
      rw [List.replicate_succ]
      unfold bytesToBigint at ih ⊢
      rw [List.foldl_cons]
      have h0 : (0 : Nat) * 256 + 0 = 0 := by norm_num
      rw [h0]
      exact ih

/-- When the value fits, `bigintToFixedBytes` succeeds with the zero-padded
big-endian encoding: `len` bytes, all `< 256`, reading back to the value. -/
theorem bigintToFixedBytes_spec (x len : Nat) (h : bigintByteLength x ≤ len) :
    ∃ B, bigintToFixedBytes x len = .ok B ∧ B.length = len ∧ bytesToBigint B = x ∧
      ∀ b ∈ B, b < 256 := by
  have hlen : (bigintToBytes x).length ≤ len := by rw [bigintToBytes_length]; exact h
  refine ⟨List.replicate (len - (bigintToBytes x).length) 0 ++ bigintToBytes x, ?_, ?_, ?_, ?_⟩
  · unfold bigintToFixedBytes
    simp only [show ¬ len < (bigintToBytes x).length by omega, if_false]
  · simp only [List.length_append, List.length_replicate]
    omega
  · rw [bytesToBigint_append, bytesToBigint_replicate_zero, bytesToBigint_bigintToBytes]
    ring
  · intro b hb
    rcases List.mem_append.mp hb with hb | hb
    · have := List.eq_of_mem_replicate hb
      omega
    · exact bigintToBytes_bytes_lt x b hb

/-- When `x < 2^64`, `u64be` succeeds with 8 big-endian bytes reading back to `x`. -/
theorem u64be_spec (x : Nat) (h : x < 2 ^ 64) :
    ∃ T, u64be x = .ok T ∧ T.length = 8 ∧ bytesToBigint T = x ∧ ∀ b ∈ T, b < 256 := by
  have h64 : (2 : Nat) ^ 64 = 18446744073709551616 := by norm_num
  refine ⟨[x / 2 ^ 56 % 256, x / 2 ^ 48 % 256, x / 2 ^ 40 % 256, x / 2 ^ 32 % 256,
    x / 2 ^ 24 % 256, x / 2 ^ 16 % 256, x / 2 ^ 8 % 256, x % 256], ?_, rfl, ?_, ?_⟩
  · unfold u64be
    simp only [show ¬ 0xffffffffffffffff < x by omega, if_false]
  · have e56 : (2 : Nat) ^ 56 = 72057594037927936 := by norm_num
    have e48 : (2 : Nat) ^ 48 = 281474976710656 := by norm_num
    have e40 : (2 : Nat) ^ 40 = 1099511627776 := by norm_num
    have e32 : (2 : Nat) ^ 32 = 4294967296 := by norm_num
    have e24 : (2 : Nat) ^ 24 = 16777216 := by norm_num
    have e16 : (2 : Nat) ^ 16 = 65536 := by norm_num
    have e8 : (2 : Nat) ^ 8 = 256 := by norm_num
    simp only [bytesToBigint, List.foldl, e56, e48, e40, e32, e24, e16, e8]
    omega
  · intro b hb
    simp only [List.mem_cons, List.not_mem_nil, or_false] at hb
    rcases hb with h1 | h1 | h1 | h1 | h1 | h1 | h1 | h1 <;> subst h1 <;>
      exact Nat.mod_lt _ (by norm_num)

/-! ## The VDF layer (`src/vdf.ts`)

The public entry points take caller-supplied bigints, embedded as `Int`;
after validation all values are nonnegative and the bodies run on `Nat`.
A thrown exception is `Except.error`; the SHA-512 digest and the external
randomness are the oracles `sha` and `rng`. -/

def MONTGOMERY_THRESHOLD_T : Nat := 5000

def MONTGOMERY_THRESHOLD_N_BITS : Nat := 1024

/-- `CHALLENGE_TAG`: the 13 ASCII bytes of `"wesolowski-v1"`. -/
def CHALLENGE_TAG : List Nat := [119, 101, 115, 111, 108, 111, 119, 115, 107, 105, 45, 118, 49]

/-- `shouldUseMontgomery` from `src/vdf.ts`. -/
def shouldUseMontgomery (n t : Nat) : Bool :=
  if t < MONTGOMERY_THRESHOLD_T then false
  else if n % 2 = 0 then false
  else decide (MONTGOMERY_THRESHOLD_N_BITS ≤ bigintByteLength n * 8)

/-- `VDFOutput` from `src/vdf.ts`: as produced by `evaluate`, all fields are
canonical nonnegative values. -/
structure VDFOutput where
  x : Nat
  h : Nat
  t : Nat
  n : Nat

/-- `VDFProof` from `src/vdf.ts`: `verify` is specified over arbitrary
caller-supplied bigints, so the bigint fields stay `Int`.  `t` is the
(nonnegative) time parameter and `nonce` the nonce bytes. -/
structure VDFProof where
  x : Int
  h : Int
  t : Nat
  n : Int
  pi : Int
  l : Int
  nonce : List Nat

/-- The plain squaring loop of `evaluate`: `h ← x`, then `t` times `h ← h² mod n`
(this is exactly the explicit nested squaring `((x²)²…)² mod n`). -/
def evalPlain (n x : Nat) : Nat → Nat
  | 0 => x
  | t + 1 => evalPlain n x t * evalPlain n x t % n

/-- The Montgomery squaring loop of `evaluate`: `t` times `h ← mont.square h`. -/
def evalMont (m : MontgomeryReducer) (hM : Nat) : Nat → Nat
  | 0 => hM
  | t + 1 => m.square (evalMont m hM t)

/-- `evaluate` from `src/vdf.ts`: validate `0 < x < n` (`RangeError`),
`gcd(x,n) = 1` (`Error`), `t > 0` (`RangeError`); then square `t` times,
through the Montgomery reducer when `shouldUseMontgomery`. -/
def evaluate (x n t : Int) : Except JsError VDFOutput :=
  if x ≤ 0 ∨ n ≤ x then .error .rangeError
  else if gcdW x.toNat n.toNat ≠ 1 then .error .genericError
  else if t ≤ 0 then .error .rangeError
  else if shouldUseMontgomery n.toNat t.toNat then
    let mont := mkMontgomery n.toNat
    .ok ⟨x.toNat, mont.fromMontgomery (evalMont mont (mont.toMontgomery x.toNat) t.toNat),
      t.toNat, n.toNat⟩
  else
    .ok ⟨x.toNat, evalPlain n.toNat x.toNat t.toNat, t.toNat, n.toNat⟩

/-- `deriveChallenge` from `src/vdf.ts`: check the nonce length, build the
transcript `TAG ‖ X ‖ H ‖ T ‖ N ‖ NONCE` (the byte encoders are evaluated in
the source's argument order and each may throw `RangeError`), hash it with
SHA-512 (`sha`), read the digest big-endian and return its `nextPrime`. -/
def deriveChallenge (sha : List Nat → List Nat) (rng : Nat → Nat → Nat)
    (o : VDFOutput) (nonce : List Nat) : Except JsError Nat :=
  if nonce.length ≠ 32 then .error .rangeError
  else
    (bigintToFixedBytes o.x (bigintByteLength o.n)).bind fun xB =>
    (bigintToFixedBytes o.h (bigintByteLength o.n)).bind fun hB =>
    (u64be o.t).bind fun tB =>
    (bigintToFixedBytes o.n (bigintByteLength o.n)).bind fun nB =>
      .ok (nextPrime rng (bytesToBigint (sha (CHALLENGE_TAG ++ xB ++ hB ++ tB ++ nB ++ nonce))))

/-- One iteration of the long-division loop in `prove` (plain path):
square `π` (`pi = pi² mod n`), double `r` (`r2 = r << 1`), and on overflow
(`r2 ≥ l`) subtract `l` and multiply in `x`. -/
def proveStep (n x l : Nat) (s : Nat × Nat) : Nat × Nat :=
  if l ≤ 2 * s.2 then (s.1 * s.1 % n * x % n, 2 * s.2 - l) else (s.1 * s.1 % n, 2 * s.2)

/-- The plain long-division loop of `prove`, started at `π = 1`, `r = 1`. -/
def provePlain (n x l : Nat) : Nat → Nat × Nat
  | 0 => (1, 1)
  | i + 1 => proveStep n x l (provePlain n x l i)

/-- One iteration of the long-division loop in `prove` (Montgomery path). -/
def proveMontStep (m : MontgomeryReducer) (xM l : Nat) (s : Nat × Nat) : Nat × Nat :=
  if l ≤ 2 * s.2 then (m.multiply (m.square s.1) xM, 2 * s.2 - l)
  else (m.square s.1, 2 * s.2)

/-- The Montgomery long-division loop of `prove`, started at
`π = toMontgomery 1`, `r = 1`. -/
def proveMont (m : MontgomeryReducer) (xM l : Nat) : Nat → Nat × Nat
  | 0 => (m.toMontgomery 1, 1)
  | i + 1 => proveMontStep m xM l (proveMont m xM l i)

/-- `prove` from `src/vdf.ts`: `π = x^⌊2^t/l⌋ mod n` by long division in the
exponent, on the Montgomery path when `shouldUseMontgomery`. -/
def prove (o : VDFOutput) (l : Nat) : Nat :=
  if shouldUseMontgomery o.n o.t then
    let m := mkMontgomery o.n
    m.fromMontgomery (proveMont m (m.toMontgomery o.x) l o.t).1
  else
    (provePlain o.n o.x l o.t).1

/-- `generateProof` from `src/vdf.ts` with the nonce explicit (the source
draws a fresh 32-byte nonce from the external RNG when none is passed). -/
def generateProof (sha : List Nat → List Nat) (rng : Nat → Nat → Nat)
    (o : VDFOutput) (nonce : List Nat) : Except JsError VDFProof :=
  (deriveChallenge sha rng o nonce).map fun l =>
    ⟨(o.x : Int), (o.h : Int), o.t, (o.n : Int), (prove o l : Int), (l : Int), nonce⟩

/-- `verify` from `src/vdf.ts`.  The source never throws: every failed check
returns `false`, so the embedding is a total `Bool`-valued function.  The
short-circuit `l <= 2n || !isPrime(l)` becomes two nested conditionals;
`isPrime` runs with the default 32 rounds and the RNG oracle `rng`. -/
def verify (rng : Nat → Nat → Nat) (p : VDFProof) : Bool :=
  if p.pi ≤ 0 ∨ p.n ≤ p.pi then false
  else if p.x ≤ 0 ∨ p.n ≤ p.x then false
  else if gcdW p.x.toNat p.n.toNat ≠ 1 then false
  else if p.l ≤ 2 then false
  else if isPrime rng p.l.toNat 32 = false then false
  else
    decide (((modpow p.pi.toNat p.l.toNat p.n.toNat
      * modpow p.x.toNat (modpow 2 p.t p.l.toNat) p.n.toNat % p.n.toNat : Nat) : Int) = p.h)

/-- The round-trip `verify(generateProof(evaluate(x, {n, t})))` with the hash
and RNG oracles and the prover's nonce explicit. -/
def roundtrip (sha : List Nat → List Nat) (rng : Nat → Nat → Nat)
    (x n t : Int) (nonce : List Nat) : Except JsError Bool :=
  (evaluate x n t).bind fun o =>
    (generateProof sha rng o nonce).map fun p => verify rng p

/-! ## Correctness of the squaring and long-division loops -/

theorem shouldUseMontgomery_odd {n t : Nat} (h : shouldUseMontgomery n t = true) :
    n % 2 = 1 := by
  unfold shouldUseMontgomery at h
  by_cases h1 : t < MONTGOMERY_THRESHOLD_T
  · simp [h1] at h
  · by_cases h2 : n % 2 = 0
    · simp [h1, h2] at h
    · omega

theorem evalPlain_spec (n x : Nat) : ∀ t, 1 ≤ t → evalPlain n x t = x ^ 2 ^ t % n := by
  intro t
  induction t with
  | zero => intro h; exact absurd h (by norm_num)
  | succ k ih =>
      intro _
      show evalPlain n x k * evalPlain n x k % n = x ^ 2 ^ (k + 1) % n
      have hpow : x ^ 2 ^ (k + 1) = x ^ 2 ^ k * x ^ 2 ^ k := by
        rw [pow_succ, pow_mul, sq]
      rw [hpow]
      conv_rhs => rw [Nat.mul_mod]
      by_cases hk : 1 ≤ k
      · rw [ih hk]
      · have hk0 : k = 0 := by omega
        subst hk0
        show x * x % n = x ^ 2 ^ 0 % n * (x ^ 2 ^ 0 % n) % n
        rw [pow_zero, pow_one, ← Nat.mul_mod]

/-- If `z ≡ w·R (mod n)` and `z < n·R`, then `reduce z` is exactly the
residue `w`: the workhorse for tracking Montgomery-form loop invariants. -/
theorem mont_reduce_cancel (n : Nat) (hodd : n % 2 = 1) (hn : 1 < n) (z : Nat)
    (hz : z < n * (mkMontgomery n).r) (w : ZMod n)
    (hw : ((z : Nat) : ZMod n) = w * ((mkMontgomery n).r : ZMod n)) :
    (mkMontgomery n).reduce z < n ∧ (((mkMontgomery n).reduce z : Nat) : ZMod n) = w := by
  obtain ⟨h1, h2⟩ := mont_reduce_spec n hodd hn z hz
  refine ⟨h1, ?_⟩
  have hn0 : n ≠ 0 := by omega
  have hcop : Nat.Coprime (mkMontgomery n).r n := by
    rw [mkMontgomery_r_eq n hn0]
    exact Nat.Coprime.pow_left _ (Nat.coprime_two_left.mpr (Nat.odd_iff.mpr hodd))
  set u : (ZMod n)ˣ := ZMod.unitOfCoprime _ hcop with hu
  have hucoe : (↑u : ZMod n) = ((mkMontgomery n).r : ZMod n) := ZMod.coe_unitOfCoprime _ hcop
  have hcast := natmod_cast_eq h2
  push_cast at hcast
  apply (Units.mul_left_inj u).mp
  rw [hucoe, hcast, hw]

theorem evalMont_inv (n : Nat) (hodd : n % 2 = 1) (hn : 1 < n) (x : Nat) (hx : x < n) :
    ∀ t, evalMont (mkMontgomery n) ((mkMontgomery n).toMontgomery x) t < n ∧
      ((evalMont (mkMontgomery n) ((mkMontgomery n).toMontgomery x) t : Nat) : ZMod n)
        = (x : ZMod n) ^ 2 ^ t * ((mkMontgomery n).r : ZMod n) := by
  have hppos : 0 < n := by omega
  have hn0 : n ≠ 0 := by omega
  have hrp : n < (mkMontgomery n).r := mkMontgomery_n_lt_r n hn0
  intro t
  induction t with
  | zero =>
      constructor
      · exact Nat.mod_lt _ hppos
      · show ((x * (mkMontgomery n).r % n : Nat) : ZMod n) = _
        rw [natmod_cast_eq (Nat.mod_mod_of_dvd _ dvd_rfl)]
        push_cast
        norm_num
  | succ k ih =>
      obtain ⟨h1, h2⟩ := ih
      set v := evalMont (mkMontgomery n) ((mkMontgomery n).toMontgomery x) k with hv
      have hz : v * v < n * (mkMontgomery n).r :=
        lt_of_lt_of_le (Nat.mul_lt_mul_of_lt_of_le h1 (le_of_lt h1) hppos)
          (Nat.mul_le_mul_left n (le_of_lt hrp))
      have hw : ((v * v : Nat) : ZMod n)
          = ((x : ZMod n) ^ 2 ^ (k + 1) * ((mkMontgomery n).r : ZMod n))
            * ((mkMontgomery n).r : ZMod n) := by
        push_cast
        rw [h2]
        have hx2 : (x : ZMod n) ^ 2 ^ (k + 1) = (x : ZMod n) ^ 2 ^ k * (x : ZMod n) ^ 2 ^ k := by
          rw [pow_succ, pow_mul, sq]
        rw [hx2]
        ring
      exact mont_reduce_cancel n hodd hn (v * v) hz _ hw

theorem evalMont_spec (n : Nat) (hodd : n % 2 = 1) (hn : 1 < n) (x : Nat) (hx : x < n)
    (t : Nat) :
    (mkMontgomery n).fromMontgomery
      (evalMont (mkMontgomery n) ((mkMontgomery n).toMontgomery x) t) = x ^ 2 ^ t % n := by
  have hppos : 0 < n := by omega
  have hn0 : n ≠ 0 := by omega
  obtain ⟨h1, h2⟩ := evalMont_inv n hodd hn x hx t
  set v := evalMont (mkMontgomery n) ((mkMontgomery n).toMontgomery x) t with hv
  have hz : v < n * (mkMontgomery n).r :=
    lt_of_lt_of_le h1 (Nat.le_mul_of_pos_right n (mkMontgomery_r_pos n hn0))
  obtain ⟨hr1, hr2⟩ := mont_reduce_cancel n hodd hn v hz ((x : ZMod n) ^ 2 ^ t) h2
  unfold MontgomeryReducer.fromMontgomery
  apply natCast_zmod_inj hr1 (Nat.mod_lt _ hppos)
  rw [hr2, natmod_cast_eq (Nat.mod_mod_of_dvd _ dvd_rfl)]
  push_cast
  ring

/-- Long division in the exponent: how quotient and remainder of `2^k` by `l`
evolve under doubling with a single conditional subtraction. -/
theorem longdiv_step (l q rm k : Nat) (hl : 0 < l) (hrm : rm < l)
    (hdm : l * q + rm = 2 ^ k) :
    (l ≤ 2 * rm → 2 ^ (k + 1) / l = 2 * q + 1 ∧ 2 ^ (k + 1) % l = 2 * rm - l) ∧
    (2 * rm < l → 2 ^ (k + 1) / l = 2 * q ∧ 2 ^ (k + 1) % l = 2 * rm) := by
  have hsucc : 2 ^ (k + 1) = l * (2 * q) + 2 * rm := by
    rw [pow_succ, ← hdm]; ring
  constructor
  · intro hc
    constructor
    · rw [hsucc, Nat.mul_add_div hl]
      have hone : 2 * rm / l = 1 := by
        apply Nat.div_eq_of_lt_le
        · omega
        · omega
      omega
    · rw [hsucc, Nat.mul_add_mod, Nat.mod_eq_sub_mod hc, Nat.mod_eq_of_lt (by omega)]
  · intro hc
    constructor
    · rw [hsucc, Nat.mul_add_div hl, Nat.div_eq_of_lt hc]
      omega
    · rw [hsucc, Nat.mul_add_mod, Nat.mod_eq_of_lt hc]

theorem provePlain_inv (n x l : Nat) (hn : 1 < n) (hl : 2 ≤ l) :
    ∀ i, provePlain n x l i = (x ^ (2 ^ i / l) % n, 2 ^ i % l) := by
  have hlpos : 0 < l := by omega
  intro i
  induction i with
  | zero =>
      have e1 : x ^ (2 ^ 0 / l) % n = 1 := by
        rw [pow_zero, Nat.div_eq_of_lt (by omega), pow_zero, Nat.mod_eq_of_lt hn]
      have e2 : 2 ^ 0 % l = 1 := by
        rw [pow_zero, Nat.mod_eq_of_lt (by omega)]
      show ((1 : Nat), (1 : Nat)) = _
      rw [e1, e2]
  | succ k ih =>
      have hrm : 2 ^ k % l < l := Nat.mod_lt _ hlpos
      have hdm : l * (2 ^ k / l) + 2 ^ k % l = 2 ^ k := Nat.div_add_mod _ _
      have hld := longdiv_step l (2 ^ k / l) (2 ^ k % l) k hlpos hrm hdm
      have hsq : x ^ (2 ^ k / l) % n * (x ^ (2 ^ k / l) % n) % n
          = x ^ (2 * (2 ^ k / l)) % n := by
        conv_rhs => rw [two_mul, pow_add, Nat.mul_mod]
      show proveStep n x l (provePlain n x l k) = _
      rw [ih]
      unfold proveStep
      dsimp only
      by_cases hc : l ≤ 2 * (2 ^ k % l)
      · obtain ⟨hdiv, hmod⟩ := hld.1 hc
        simp only [hc, if_true]
        rw [hdiv, hmod, hsq, Nat.mod_mul_mod, ← pow_succ]
      · obtain ⟨hdiv, hmod⟩ := hld.2 (by omega)
        simp only [hc, if_false]
        rw [hdiv, hmod, hsq]

theorem proveMont_inv (n : Nat) (hodd : n % 2 = 1) (hn : 1 < n) (x l : Nat) (hx : x < n)
    (hl : 2 ≤ l) :
    ∀ i, (proveMont (mkMontgomery n) ((mkMontgomery n).toMontgomery x) l i).1 < n ∧
      (((proveMont (mkMontgomery n) ((mkMontgomery n).toMontgomery x) l i).1 : Nat) : ZMod n)
        = (x : ZMod n) ^ (2 ^ i / l) * ((mkMontgomery n).r : ZMod n) ∧
      (proveMont (mkMontgomery n) ((mkMontgomery n).toMontgomery x) l i).2 = 2 ^ i % l := by
  have hppos : 0 < n := by omega
  have hn0 : n ≠ 0 := by omega
  have hlpos : 0 < l := by omega
  have hrp : n < (mkMontgomery n).r := mkMontgomery_n_lt_r n hn0
  have hxM : (mkMontgomery n).toMontgomery x < n := Nat.mod_lt _ hppos
  have hxMcast : (((mkMontgomery n).toMontgomery x : Nat) : ZMod n)
      = (x : ZMod n) * ((mkMontgomery n).r : ZMod n) := by
    show ((x * (mkMontgomery n).r % n : Nat) : ZMod n) = _
    rw [natmod_cast_eq (Nat.mod_mod_of_dvd _ dvd_rfl)]
    push_cast
    ring
  intro i
  induction i with
  | zero =>
      refine ⟨?_, ?_, ?_⟩
      · show (mkMontgomery n).toMontgomery 1 < n
        exact Nat.mod_lt _ hppos
      · show ((1 * (mkMontgomery n).r % n : Nat) : ZMod n) = _
        rw [natmod_cast_eq (Nat.mod_mod_of_dvd _ dvd_rfl), pow_zero,
          Nat.div_eq_of_lt (by omega), pow_zero]
        push_cast
        ring
      · show (1 : Nat) = 2 ^ 0 % l
        rw [pow_zero, Nat.mod_eq_of_lt (by omega)]
  | succ k ih =>
      obtain ⟨h1, h2, h3⟩ := ih
      cases hpk : proveMont (mkMontgomery n) ((mkMontgomery n).toMontgomery x) l k with
      | mk p rr =>
      rw [hpk] at h1 h2 h3
      dsimp only at h1 h2 h3
      have hrm : 2 ^ k % l < l := Nat.mod_lt _ hlpos
      have hdm : l * (2 ^ k / l) + 2 ^ k % l = 2 ^ k := Nat.div_add_mod _ _
      have hld := longdiv_step l (2 ^ k / l) (2 ^ k % l) k hlpos hrm hdm
      have hzsq : p * p < n * (mkMontgomery n).r :=
        lt_of_lt_of_le (Nat.mul_lt_mul_of_lt_of_le h1 (le_of_lt h1) hppos)
          (Nat.mul_le_mul_left n (le_of_lt hrp))
      have hwsq : ((p * p : Nat) : ZMod n)
          = ((x : ZMod n) ^ (2 * (2 ^ k / l)) * ((mkMontgomery n).r : ZMod n))
            * ((mkMontgomery n).r : ZMod n) := by
        push_cast
        rw [h2, two_mul, pow_add]
        ring
      obtain ⟨hsq1, hsq2⟩ := mont_reduce_cancel n hodd hn (p * p) hzsq _ hwsq
      have hstep : proveMont (mkMontgomery n) ((mkMontgomery n).toMontgomery x) l (k + 1)
          = proveMontStep (mkMontgomery n) ((mkMontgomery n).toMontgomery x) l (p, rr) := by
        show proveMontStep (mkMontgomery n) ((mkMontgomery n).toMontgomery x) l
          (proveMont (mkMontgomery n) ((mkMontgomery n).toMontgomery x) l k) = _
        rw [hpk]
      rw [hstep]
      unfold proveMontStep
      dsimp only
      rw [h3]
      by_cases hc : l ≤ 2 * (2 ^ k % l)
      · obtain ⟨hdiv, hmod⟩ := hld.1 hc
        simp only [hc, if_true]
        have hzmul : (mkMontgomery n).reduce (p * p) * (mkMontgomery n).toMontgomery x
            < n * (mkMontgomery n).r :=
          lt_of_lt_of_le (Nat.mul_lt_mul_of_lt_of_le hsq1 (le_of_lt hxM) hppos)
            (Nat.mul_le_mul_left n (le_of_lt hrp))
        have hwmul : (((mkMontgomery n).reduce (p * p)
              * (mkMontgomery n).toMontgomery x : Nat) : ZMod n)
            = ((x : ZMod n) ^ (2 ^ (k + 1) / l) * ((mkMontgomery n).r : ZMod n))
              * ((mkMontgomery n).r : ZMod n) := by
          push_cast
          rw [hsq2, hxMcast, hdiv, pow_succ]
          ring
        obtain ⟨hm1, hm2⟩ := mont_reduce_cancel n hodd hn _ hzmul _ hwmul
        refine ⟨?_, ?_, by rw [hmod]⟩
        · show (mkMontgomery n).reduce ((mkMontgomery n).reduce (p * p)
            * (mkMontgomery n).toMontgomery x) < n
          exact hm1
        · show ((((mkMontgomery n).reduce ((mkMontgomery n).reduce (p * p)
            * (mkMontgomery n).toMontgomery x)) : Nat) : ZMod n) = _
          exact hm2
      · obtain ⟨hdiv, hmod⟩ := hld.2 (by omega)
        simp only [hc, if_false]
        refine ⟨hsq1, ?_, by rw [hmod]⟩
        rw [hdiv]
        exact hsq2

theorem prove_spec (o : VDFOutput) (l : Nat) (hn : 1 < o.n) (hx : o.x < o.n) (hl : 2 ≤ l) :
    prove o l = o.x ^ (2 ^ o.t / l) % o.n := by
  have hppos : 0 < o.n := by omega
  have hn0 : o.n ≠ 0 := by omega
  unfold prove
  by_cases hm : shouldUseMontgomery o.n o.t = true
  · simp only [hm, if_true]
    have hodd := shouldUseMontgomery_odd hm
    obtain ⟨h1, h2, _⟩ := proveMont_inv o.n hodd hn o.x l hx hl o.t
    set v := (proveMont (mkMontgomery o.n) ((mkMontgomery o.n).toMontgomery o.x) l o.t).1 with hv
    have hz : v < o.n * (mkMontgomery o.n).r :=
      lt_of_lt_of_le h1 (Nat.le_mul_of_pos_right o.n (mkMontgomery_r_pos o.n hn0))
    obtain ⟨hr1, hr2⟩ := mont_reduce_cancel o.n hodd hn v hz
      ((o.x : ZMod o.n) ^ (2 ^ o.t / l)) (by rw [h2])
    unfold MontgomeryReducer.fromMontgomery
    apply natCast_zmod_inj hr1 (Nat.mod_lt _ hppos)
    rw [hr2, natmod_cast_eq (Nat.mod_mod_of_dvd _ dvd_rfl)]
    push_cast
    ring
  · simp only [Bool.not_eq_true] at hm
    simp only [hm, Bool.false_eq_true, if_false]
    rw [provePlain_inv o.n o.x l hn hl o.t]

/-! ## Success and failure of the public entry points -/

theorem int_toNat_gcd {x n : Int} (hx : 0 < x) (hn : 0 < n) :
    Nat.gcd x.toNat n.toNat = Int.gcd x n := by
  have h1 : x.toNat = x.natAbs := by omega
  have h2 : n.toNat = n.natAbs := by omega
  rw [h1, h2]
  rfl

theorem evaluate_ok (x n t : Int) (hn : 1 < n) (hx0 : 0 < x) (hxn : x < n)
    (hg : Int.gcd x n = 1) (ht : 0 < t) :
    evaluate x n t = .ok ⟨x.toNat, x.toNat ^ 2 ^ t.toNat % n.toNat, t.toNat, n.toNat⟩ := by
  have hxN : x.toNat < n.toNat := by omega
  have hnN : 1 < n.toNat := by omega
  have htN : 1 ≤ t.toNat := by omega
  have hgN : gcdW x.toNat n.toNat = 1 := by
    rw [gcdW_eq_gcd, int_toNat_gcd hx0 (by omega), hg]
  unfold evaluate
  rw [if_neg (show ¬ (x ≤ 0 ∨ n ≤ x) by omega),
    if_neg (show ¬ gcdW x.toNat n.toNat ≠ 1 from fun hne => hne hgN),
    if_neg (show ¬ t ≤ 0 by omega)]
  by_cases hm : shouldUseMontgomery n.toNat t.toNat = true
  · rw [if_pos hm]
    have hodd := shouldUseMontgomery_odd hm
    show Except.ok (⟨x.toNat, (mkMontgomery n.toNat).fromMontgomery
      (evalMont (mkMontgomery n.toNat) ((mkMontgomery n.toNat).toMontgomery x.toNat) t.toNat),
      t.toNat, n.toNat⟩ : VDFOutput) = _
    rw [evalMont_spec n.toNat hodd hnN x.toNat hxN t.toNat]
  · rw [if_neg hm, evalPlain_spec n.toNat x.toNat t.toNat htN]

theorem evaluate_error (x n t : Int)
    (h : x ≤ 0 ∨ n ≤ x ∨ Int.gcd x n ≠ 1 ∨ t ≤ 0) :
    ∃ e, evaluate x n t = .error e := by
  unfold evaluate
  by_cases h1 : x ≤ 0 ∨ n ≤ x
  · exact ⟨.rangeError, by rw [if_pos h1]⟩
  · rw [if_neg h1]
    push_neg at h1
    by_cases h2 : gcdW x.toNat n.toNat ≠ 1
    · exact ⟨.genericError, by rw [if_pos h2]⟩
    · rw [if_neg h2]
      push_neg at h2
      have hg : Int.gcd x n = 1 := by
        rw [← int_toNat_gcd h1.1 (lt_trans h1.1 h1.2), ← gcdW_eq_gcd]
        exact h2
      have ht : t ≤ 0 := by
        rcases h with h | h | h | h
        · omega
        · omega
        · exact absurd hg h
        · exact h
      exact ⟨.rangeError, by rw [if_pos ht]⟩

/-- When the nonce is 32 bytes, the values fit and `t < 2^64`,
`deriveChallenge` hashes exactly `TAG ‖ X ‖ H ‖ T ‖ N ‖ NONCE` and returns
`nextPrime` of the big-endian digest. -/
theorem deriveChallenge_payload (sha : List Nat → List Nat) (rng : Nat → Nat → Nat)
    (o : VDFOutput) (nonce : List Nat) (hnonce : nonce.length = 32)
    (hx : bigintByteLength o.x ≤ bigintByteLength o.n)
    (hh : bigintByteLength o.h ≤ bigintByteLength o.n) (ht : o.t < 2 ^ 64) :
    ∃ X H T N : List Nat,
      X.length = bigintByteLength o.n ∧ bytesToBigint X = o.x ∧ (∀ b ∈ X, b < 256) ∧
      H.length = bigintByteLength o.n ∧ bytesToBigint H = o.h ∧ (∀ b ∈ H, b < 256) ∧
      T.length = 8 ∧ bytesToBigint T = o.t ∧ (∀ b ∈ T, b < 256) ∧
      N.length = bigintByteLength o.n ∧ bytesToBigint N = o.n ∧ (∀ b ∈ N, b < 256) ∧
      deriveChallenge sha rng o nonce
        = .ok (nextPrime rng (bytesToBigint (sha (CHALLENGE_TAG ++ X ++ H ++ T ++ N ++ nonce)))) := by
  obtain ⟨X, hX1, hX2, hX3, hX4⟩ := bigintToFixedBytes_spec o.x _ hx
  obtain ⟨H, hH1, hH2, hH3, hH4⟩ := bigintToFixedBytes_spec o.h _ hh
  obtain ⟨T, hT1, hT2, hT3, hT4⟩ := u64be_spec o.t ht
  obtain ⟨N, hN1, hN2, hN3, hN4⟩ := bigintToFixedBytes_spec o.n _ le_rfl
  refine ⟨X, H, T, N, hX2, hX3, hX4, hH2, hH3, hH4, hT2, hT3, hT4, hN2, hN3, hN4, ?_⟩
  unfold deriveChallenge
  rw [if_neg (show ¬ nonce.length ≠ 32 from fun hne => hne hnonce)]
  rw [hX1, hH1, hT1, hN1]
  rfl

/-- With a 32-byte nonce and fitting `x`, `h`, a time parameter `t ≥ 2^64`
makes `u64be` — and hence `deriveChallenge` — throw a `RangeError`. -/
theorem deriveChallenge_t_error (sha : List Nat → List Nat) (rng : Nat → Nat → Nat)
    (o : VDFOutput) (nonce : List Nat) (hnonce : nonce.length = 32)
    (hx : bigintByteLength o.x ≤ bigintByteLength o.n)
    (hh : bigintByteLength o.h ≤ bigintByteLength o.n)
    (ht : 2 ^ 64 ≤ o.t) :
    deriveChallenge sha rng o nonce = .error .rangeError := by
  have h64 : (2 : Nat) ^ 64 = 18446744073709551616 := by norm_num
  obtain ⟨X, hX1, _⟩ := bigintToFixedBytes_spec o.x _ hx
  obtain ⟨H, hH1, _⟩ := bigintToFixedBytes_spec o.h _ hh
  have hT : u64be o.t = .error .rangeError := by
    unfold u64be
    rw [if_pos (by omega)]
  unfold deriveChallenge
  rw [if_neg (show ¬ nonce.length ≠ 32 from fun hne => hne hnonce)]
  rw [hX1, hH1, hT]
  rfl

theorem pow_mod_pos_of_coprime (x n q : Nat) (hn : 1 < n) (hg : Nat.gcd x n = 1) :
    0 < x ^ q % n := by
  rcases Nat.eq_zero_or_pos (x ^ q % n) with h | h
  · exfalso
    have hdvd : n ∣ x ^ q := Nat.dvd_of_mod_eq_zero h
    have hc : Nat.Coprime (x ^ q) n := Nat.Coprime.pow_left q hg
    have := Nat.Coprime.eq_one_of_dvd hc.symm hdvd
    omega
  · exact h

theorem generateProof_ok (sha : List Nat → List Nat) (rng : Nat → Nat → Nat)
    (o : VDFOutput) (nonce : List Nat) (l : Nat)
    (hd : deriveChallenge sha rng o nonce = .ok l) :
    generateProof sha rng o nonce
      = .ok ⟨(o.x : Int), (o.h : Int), o.t, (o.n : Int), (prove o l : Int), (l : Int), nonce⟩ := by
  unfold generateProof
  rw [hd]
  rfl

theorem roundtrip_ok_of (sha : List Nat → List Nat) (rng : Nat → Nat → Nat)
    (x n t : Int) (nonce : List Nat) (o : VDFOutput) (p : VDFProof)
    (h1 : evaluate x n t = .ok o) (h2 : generateProof sha rng o nonce = .ok p)
    (h3 : verify rng p = true) : roundtrip sha rng x n t nonce = .ok true := by
  unfold roundtrip
  rw [h1]
  show (generateProof sha rng o nonce).map _ = _
  rw [h2]
  show Except.ok (verify rng p) = _
  rw [h3]

theorem roundtrip_error_of (sha : List Nat → List Nat) (rng : Nat → Nat → Nat)
    (x n t : Int) (nonce : List Nat) (o : VDFOutput) (e : JsError)
    (h1 : evaluate x n t = .ok o) (h2 : generateProof sha rng o nonce = .error e) :
    roundtrip sha rng x n t nonce = .error e := by
  unfold roundtrip
  rw [h1]
  show (generateProof sha rng o nonce).map _ = _
  rw [h2]
  rfl

/-- All of `verify`'s checks passing forces the `true` outcome. -/
theorem verify_true_of (rng : Nat → Nat → Nat) (p : VDFProof)
    (h1 : 0 < p.pi) (h2 : p.pi < p.n) (h3 : 0 < p.x) (h4 : p.x < p.n)
    (h5 : Int.gcd p.x p.n = 1) (h6 : 2 < p.l) (h7 : isPrime rng p.l.toNat 32 = true)
    (h8 : ((p.pi.toNat ^ p.l.toNat % p.n.toNat
      * (p.x.toNat ^ (2 ^ p.t % p.l.toNat) % p.n.toNat) % p.n.toNat : Nat) : Int) = p.h) :
    verify rng p = true := by
  have hgN : gcdW p.x.toNat p.n.toNat = 1 := by
    rw [gcdW_eq_gcd, int_toNat_gcd h3 (lt_trans h3 h4), h5]
  unfold verify
  rw [if_neg (show ¬ (p.pi ≤ 0 ∨ p.n ≤ p.pi) by omega),
    if_neg (show ¬ (p.x ≤ 0 ∨ p.n ≤ p.x) by omega),
    if_neg (show ¬ gcdW p.x.toNat p.n.toNat ≠ 1 from fun hne => hne hgN),
    if_neg (show ¬ p.l ≤ 2 by omega),
    if_neg (show ¬ isPrime rng p.l.toNat 32 = false by rw [h7]; simp)]
  rw [modpow_spec 2 p.t p.l.toNat (by omega),
    modpow_spec p.pi.toNat p.l.toNat p.n.toNat (by omega),
    modpow_spec p.x.toNat _ p.n.toNat (by omega)]
  exact decide_eq_true h8

/-- The generic trial-division loop finds nothing when nothing is there. -/
theorem trialDivide_none (n : Nat) :
    ∀ l : List Nat, (∀ p ∈ l, n ≠ p ∧ n % p ≠ 0) → trialDivide n l = none := by
  intro l
  induction l with
  | nil => intro _; rfl
  | cons p ps ih =>
      intro hf
      obtain ⟨hne, hmod⟩ := hf p (List.mem_cons_self p ps)
      unfold trialDivide
      rw [if_neg hne, if_neg hmod]
      exact ih fun q hq => hf q (List.mem_cons_of_mem p hq)

theorem mkMontgomery_r_even (n : Nat) : (mkMontgomery n).r % 2 = 0 := by
  by_cases hn0 : n = 0
  · subst hn0
    show (mkMontgomery 0).r % 2 = 0
    decide
  · obtain ⟨k, hk⟩ : ∃ k, bitLen n = k + 1 := ⟨bitLen n - 1, by have := bitLen_pos n hn0; omega⟩
    rw [mkMontgomery_r_eq n hn0, hk, pow_succ]
    omega

/-! ## The verified claims -/

/-- **C1** (amended).  Round-trip: for every modulus `n > 1`, every `x` with
`0 < x < n` and `gcd(x,n) = 1`, every `t` with `1 ≤ t < 2^64` (for `t ≥ 2^64`
the transcript encoder `u64be` throws, see the counterexample), a 32-byte
nonce, and the SHA-512 and RNG oracles (with digests above `2`, as for a real
64-byte digest), `verify (generateProof (evaluate x {n, t})))` returns
`true`. -/
theorem C1_roundtrip (sha : List Nat → List Nat) (rng : Nat → Nat → Nat)
    (x n t : Int) (nonce : List Nat) (hn : 1 < n) (hx0 : 0 < x) (hxn : x < n)
    (hg : Int.gcd x n = 1) (ht : 0 < t) (ht64 : t < 2 ^ 64) (hnonce : nonce.length = 32)
    (hsha : ∀ payload, 2 < bytesToBigint (sha payload)) :
    roundtrip sha rng x n t nonce = .ok true := by
  have h64 : (2 : Int) ^ 64 = 18446744073709551616 := by norm_num
  have h64N : (2 : Nat) ^ 64 = 18446744073709551616 := by norm_num
  have hnN : 1 < n.toNat := by omega
  have hxN : x.toNat < n.toNat := by omega
  have hx0N : 0 < x.toNat := by omega
  have htN : 1 ≤ t.toNat := by omega
  have ht64N : t.toNat < 2 ^ 64 := by omega
  have hgN : Nat.gcd x.toNat n.toNat = 1 := by rw [int_toNat_gcd hx0 (by omega), hg]
  set hN := x.toNat ^ 2 ^ t.toNat % n.toNat with hhN
  have hhlt : hN < n.toNat := Nat.mod_lt _ (by omega)
  obtain ⟨X, H, T, N, _, _, _, _, _, _, _, _, _, _, _, _, hDC⟩ :=
    deriveChallenge_payload sha rng ⟨x.toNat, hN, t.toNat, n.toNat⟩ nonce hnonce
      (bigintByteLength_le_of_le (le_of_lt hxN))
      (bigintByteLength_le_of_le (le_of_lt hhlt)) ht64N
  set D := bytesToBigint (sha (CHALLENGE_TAG ++ X ++ H ++ T ++ N ++ nonce)) with hD
  obtain ⟨hlP, hl2⟩ := nextPrime_accepted rng D (hsha _)
  set l := nextPrime rng D with hl
  have hprove : prove ⟨x.toNat, hN, t.toNat, n.toNat⟩ l
      = x.toNat ^ (2 ^ t.toNat / l) % n.toNat :=
    prove_spec ⟨x.toNat, hN, t.toNat, n.toNat⟩ l hnN hxN (by omega)
  set piN := prove ⟨x.toNat, hN, t.toNat, n.toNat⟩ l with hpiN
  have hpi_lt : piN < n.toNat := by rw [hprove]; exact Nat.mod_lt _ (by omega)
  have hpi_pos : 0 < piN := by
    rw [hprove]; exact pow_mod_pos_of_coprime x.toNat n.toNat _ hnN hgN
  have hmain : piN ^ l % n.toNat * (x.toNat ^ (2 ^ t.toNat % l) % n.toNat) % n.toNat = hN := by
    rw [hprove, ← Nat.pow_mod, ← pow_mul, ← Nat.mul_mod, ← pow_add, Nat.div_add_mod']
  apply roundtrip_ok_of sha rng x n t nonce ⟨x.toNat, hN, t.toNat, n.toNat⟩
    ⟨(x.toNat : Int), (hN : Int), t.toNat, (n.toNat : Int), (piN : Int), (l : Int), nonce⟩
  · exact evaluate_ok x n t hn hx0 hxn hg ht
  · exact generateProof_ok sha rng _ nonce l hDC
  · refine verify_true_of rng
      ⟨(x.toNat : Int), (hN : Int), t.toNat, (n.toNat : Int), (piN : Int), (l : Int), nonce⟩
      ?_ ?_ ?_ ?_ ?_ ?_ ?_ ?_
    · show (0 : Int) < (piN : Int)
      omega
    · show (piN : Int) < (n.toNat : Int)
      omega
    · show (0 : Int) < (x.toNat : Int)
      omega
    · show (x.toNat : Int) < (n.toNat : Int)
      omega
    · show Int.gcd (x.toNat : Int) (n.toNat : Int) = 1
      rw [Int.gcd_natCast_natCast]
      exact hgN
    · show (2 : Int) < (l : Int)
      omega
    · exact hlP
    · exact congrArg (fun m : Nat => (m : Int)) hmain

/-- For `t ≥ 2^64` the round trip throws: `u64be(t)` inside
`deriveChallenge` raises a `RangeError` before anything is hashed. -/
theorem roundtrip_t_error (sha : List Nat → List Nat) (rng : Nat → Nat → Nat)
    (x n t : Int) (nonce : List Nat) (hn : 1 < n) (hx0 : 0 < x) (hxn : x < n)
    (hg : Int.gcd x n = 1) (ht64 : 2 ^ 64 ≤ t) (hnonce : nonce.length = 32) :
    roundtrip sha rng x n t nonce = .error .rangeError := by
  have h64 : (2 : Int) ^ 64 = 18446744073709551616 := by norm_num
  have h64N : (2 : Nat) ^ 64 = 18446744073709551616 := by norm_num
  have ht : 0 < t := by omega
  apply roundtrip_error_of sha rng x n t nonce
    ⟨x.toNat, x.toNat ^ 2 ^ t.toNat % n.toNat, t.toNat, n.toNat⟩ .rangeError
  · exact evaluate_ok x n t hn hx0 hxn hg ht
  · have herr := deriveChallenge_t_error sha rng
      ⟨x.toNat, x.toNat ^ 2 ^ t.toNat % n.toNat, t.toNat, n.toNat⟩ nonce hnonce
      (bigintByteLength_le_of_le (show x.toNat ≤ n.toNat by omega))
      (bigintByteLength_le_of_le
        (le_of_lt (Nat.mod_lt (x.toNat ^ 2 ^ t.toNat) (show 0 < n.toNat by omega))))
      (show 2 ^ 64 ≤ t.toNat by omega)
    unfold generateProof
    rw [herr]
    rfl

/-- **C1**, counterexample to the claim as stated: with `t = 2^64` (an
integer `t ≥ 1`) the round-trip composition does not return `true` —
`u64be(t)` inside `deriveChallenge` throws a `RangeError` — even though
`x = 2`, `n = 5`, `gcd(x,n) = 1`, the nonce is 32 bytes and the digest
oracle always exceeds `2`. -/
theorem C1_counterexample :
    roundtrip (fun _ => [7]) (fun _ _ => 0) 2 5 (2 ^ 64) (List.replicate 32 0)
      = .error .rangeError :=
  roundtrip_t_error (fun _ => [7]) (fun _ _ => 0) 2 5 (2 ^ 64) (List.replicate 32 0)
    (by norm_num) (by norm_num) (by norm_num) (by decide) (by norm_num) (by simp)

/-- **C1**, witness. -/
theorem C1_witness :
    roundtrip (fun _ => [7]) (fun _ _ => 0) 2 5 1 (List.replicate 32 0) = .ok true :=
  C1_roundtrip (fun _ => [7]) (fun _ _ => 0) 2 5 1 (List.replicate 32 0)
    (by norm_num) (by norm_num) (by norm_num) (by decide) (by norm_num) (by norm_num)
    (by simp) (fun payload => by norm_num [bytesToBigint, List.foldl])

/-- **C2.**  `verify` returns `true` exactly when every check passes:
`0 < π < n`, `0 < x < n`, `gcd(x,n) = 1`, `l > 2`, `isPrime l` (32 rounds,
RNG oracle), and `(π^l mod n · x^(2^t mod l) mod n) mod n = h`.  On a failed
check it returns `false`; the embedding is a total function into `Bool`
(the source `verify` contains no `throw`), so it never raises. -/
theorem C2_verify_iff (rng : Nat → Nat → Nat) (p : VDFProof) :
    verify rng p = true ↔
      (0 < p.pi ∧ p.pi < p.n ∧ 0 < p.x ∧ p.x < p.n ∧ Int.gcd p.x p.n = 1 ∧
       2 < p.l ∧ isPrime rng p.l.toNat 32 = true ∧
       ((p.pi.toNat ^ p.l.toNat % p.n.toNat
         * (p.x.toNat ^ (2 ^ p.t % p.l.toNat) % p.n.toNat) % p.n.toNat : Nat) : Int) = p.h) := by
  unfold verify
  by_cases h1 : p.pi ≤ 0 ∨ p.n ≤ p.pi
  · rw [if_pos h1]
    simp only [Bool.false_eq_true, false_iff]
    rintro ⟨a, b, -⟩
    omega
  rw [if_neg h1]
  by_cases h2 : p.x ≤ 0 ∨ p.n ≤ p.x
  · rw [if_pos h2]
    simp only [Bool.false_eq_true, false_iff]
    rintro ⟨-, -, a, b, -⟩
    omega
  rw [if_neg h2]
  push_neg at h1 h2
  have hxpos : (0 : Int) < p.x := h2.1
  have hnpos : (0 : Int) < p.n := lt_trans h2.1 h2.2
  by_cases h3 : gcdW p.x.toNat p.n.toNat ≠ 1
  · rw [if_pos h3]
    simp only [Bool.false_eq_true, false_iff]
    rintro ⟨-, -, -, -, hg, -⟩
    exact h3 (by rw [gcdW_eq_gcd, int_toNat_gcd hxpos hnpos, hg])
  rw [if_neg h3]
  push_neg at h3
  have hgInt : Int.gcd p.x p.n = 1 := by
    rw [← int_toNat_gcd hxpos hnpos, ← gcdW_eq_gcd]
    exact h3
  by_cases h4 : p.l ≤ 2
  · rw [if_pos h4]
    simp only [Bool.false_eq_true, false_iff]
    rintro ⟨-, -, -, -, -, hl, -⟩
    omega
  rw [if_neg h4]
  push_neg at h4
  by_cases h5 : isPrime rng p.l.toNat 32 = false
  · rw [if_pos h5]
    simp only [Bool.false_eq_true, false_iff]
    rintro ⟨-, -, -, -, -, -, hip, -⟩
    rw [hip] at h5
    simp at h5
  rw [if_neg h5]
  simp only [Bool.not_eq_false] at h5
  have hnN : 0 < p.n.toNat := by omega
  have hlN : 0 < p.l.toNat := by omega
  rw [modpow_spec 2 p.t p.l.toNat hlN, modpow_spec p.pi.toNat p.l.toNat p.n.toNat hnN,
    modpow_spec p.x.toNat _ p.n.toNat hnN, decide_eq_true_eq]
  constructor
  · intro heq
    exact ⟨by omega, by omega, by omega, by omega, hgInt, by omega, h5, heq⟩
  · rintro ⟨-, -, -, -, -, -, -, heq⟩
    exact heq

/-- **C3.**  `prove` returns `x^⌊2^t/l⌋ mod n`, and the long-division loop
invariant holds after every iteration `i` on both paths: the `π`-component
represents `x^⌊2^i/l⌋ mod n` (read back through `fromMontgomery` on the
Montgomery path) and `r = 2^i mod l < l`, so the single conditional
subtraction suffices. -/
theorem C3_prove_spec (o : VDFOutput) (l : Nat) (hn : 1 < o.n) (hx0 : 0 < o.x)
    (hx : o.x < o.n) (ht : 1 ≤ o.t) (hl2 : 2 < l) (hlp : l.Prime) :
    prove o l = o.x ^ (2 ^ o.t / l) % o.n ∧
    (∀ i, provePlain o.n o.x l i = (o.x ^ (2 ^ i / l) % o.n, 2 ^ i % l)
      ∧ (provePlain o.n o.x l i).2 < l) ∧
    (o.n % 2 = 1 → ∀ i,
      (mkMontgomery o.n).fromMontgomery
        (proveMont (mkMontgomery o.n) ((mkMontgomery o.n).toMontgomery o.x) l i).1
        = o.x ^ (2 ^ i / l) % o.n ∧
      (proveMont (mkMontgomery o.n) ((mkMontgomery o.n).toMontgomery o.x) l i).2 = 2 ^ i % l ∧
      (proveMont (mkMontgomery o.n) ((mkMontgomery o.n).toMontgomery o.x) l i).2 < l) := by
  have hlpos : 0 < l := by omega
  refine ⟨prove_spec o l hn hx (by omega), ?_, ?_⟩
  · intro i
    refine ⟨provePlain_inv o.n o.x l hn (by omega) i, ?_⟩
    rw [provePlain_inv o.n o.x l hn (by omega) i]
    exact Nat.mod_lt _ hlpos
  · intro hodd i
    obtain ⟨h1, h2, h3⟩ := proveMont_inv o.n hodd hn o.x l hx (by omega) i
    refine ⟨?_, h3, by rw [h3]; exact Nat.mod_lt _ hlpos⟩
    have hz : (proveMont (mkMontgomery o.n) ((mkMontgomery o.n).toMontgomery o.x) l i).1
        < o.n * (mkMontgomery o.n).r :=
      lt_of_lt_of_le h1 (Nat.le_mul_of_pos_right o.n (mkMontgomery_r_pos o.n (by omega)))
    obtain ⟨hr1, hr2⟩ := mont_reduce_cancel o.n hodd hn _ hz
      ((o.x : ZMod o.n) ^ (2 ^ i / l)) (by rw [h2])
    unfold MontgomeryReducer.fromMontgomery
    apply natCast_zmod_inj hr1 (Nat.mod_lt _ (by omega))
    rw [hr2, natmod_cast_eq (Nat.mod_mod_of_dvd _ dvd_rfl)]
    push_cast
    ring

/-- **C3**, witness. -/
theorem C3_witness : prove ⟨3, 4, 2, 7⟩ 5 = 3 ^ (2 ^ 2 / 5) % 7 :=
  (C3_prove_spec ⟨3, 4, 2, 7⟩ 5 (by decide) (by decide) (by decide) (by decide)
    (by decide) (by norm_num)).1

/-- **C4.**  For `0 < x < n`, `gcd(x,n) = 1`, `t > 0`, `evaluate` returns
`(x, h, t, n)` with `h = x^(2^t) mod n`; the plain loop (which is the
explicit nested squaring `((x²)²…)² mod n`, `t` squarings) and — for odd
moduli — the Montgomery loop both compute that value; and for `x ≤ 0`,
`x ≥ n`, `gcd(x,n) ≠ 1` or `t ≤ 0` it throws instead of returning. -/
theorem C4_evaluate_spec (x n t : Int) (hn : 1 < n) (hx0 : 0 < x) (hxn : x < n)
    (hg : Int.gcd x n = 1) (ht : 0 < t) :
    evaluate x n t = .ok ⟨x.toNat, x.toNat ^ 2 ^ t.toNat % n.toNat, t.toNat, n.toNat⟩ ∧
    evalPlain n.toNat x.toNat t.toNat = x.toNat ^ 2 ^ t.toNat % n.toNat ∧
    (n.toNat % 2 = 1 →
      (mkMontgomery n.toNat).fromMontgomery
        (evalMont (mkMontgomery n.toNat) ((mkMontgomery n.toNat).toMontgomery x.toNat) t.toNat)
        = x.toNat ^ 2 ^ t.toNat % n.toNat) ∧
    (∀ x2 n2 t2 : Int, (x2 ≤ 0 ∨ n2 ≤ x2 ∨ Int.gcd x2 n2 ≠ 1 ∨ t2 ≤ 0) →
      ∃ e, evaluate x2 n2 t2 = Except.error e) := by
  refine ⟨evaluate_ok x n t hn hx0 hxn hg ht, evalPlain_spec _ _ _ (by omega), ?_, ?_⟩
  · intro hodd
    exact evalMont_spec n.toNat hodd (by omega) x.toNat (by omega) t.toNat
  · intro x2 n2 t2 h
    exact evaluate_error x2 n2 t2 h

/-- **C4**, witness. -/
theorem C4_witness : evaluate 3 7 2
    = .ok ⟨(3 : Int).toNat, (3 : Int).toNat ^ 2 ^ (2 : Int).toNat % (7 : Int).toNat,
      (2 : Int).toNat, (7 : Int).toNat⟩ :=
  (C4_evaluate_spec 3 7 2 (by norm_num) (by norm_num) (by norm_num) (by decide)
    (by norm_num)).1

/-- **C5.**  For an output whose `x` and `h` fit in `nLen` bytes and
`0 ≤ t < 2^64`, `deriveChallenge` throws `RangeError` exactly when the nonce
is not 32 bytes; otherwise it hashes exactly
`TAG ‖ X ‖ H ‖ T ‖ N ‖ NONCE` — `TAG` the 13 tag bytes with no length prefix
or terminator, `X`, `H`, `N` big-endian zero-padded to exactly `nLen` bytes,
`T` the 8-byte big-endian `t` — and returns `nextPrime` of the digest read
as a big-endian integer. -/
theorem C5_deriveChallenge_spec (sha : List Nat → List Nat) (rng : Nat → Nat → Nat)
    (o : VDFOutput) (nonce : List Nat)
    (hx : bigintByteLength o.x ≤ bigintByteLength o.n)
    (hh : bigintByteLength o.h ≤ bigintByteLength o.n)
    (ht : o.t < 2 ^ 64) :
    (nonce.length ≠ 32 → deriveChallenge sha rng o nonce = .error .rangeError) ∧
    (nonce.length = 32 → ∃ X H T N : List Nat,
      X.length = bigintByteLength o.n ∧ bytesToBigint X = o.x ∧ (∀ b ∈ X, b < 256) ∧
      H.length = bigintByteLength o.n ∧ bytesToBigint H = o.h ∧ (∀ b ∈ H, b < 256) ∧
      T.length = 8 ∧ bytesToBigint T = o.t ∧ (∀ b ∈ T, b < 256) ∧
      N.length = bigintByteLength o.n ∧ bytesToBigint N = o.n ∧ (∀ b ∈ N, b < 256) ∧
      deriveChallenge sha rng o nonce
        = .ok (nextPrime rng (bytesToBigint (sha (CHALLENGE_TAG ++ X ++ H ++ T ++ N ++ nonce))))) := by
  constructor
  · intro hne
    unfold deriveChallenge
    rw [if_pos hne]
  · intro h32
    exact deriveChallenge_payload sha rng o nonce h32 hx hh ht

/-- **C5**, witness. -/
theorem C5_witness :
    deriveChallenge (fun _ => [5]) (fun _ _ => 0) ⟨1, 2, 3, 5⟩ (List.replicate 31 0)
      = .error .rangeError :=
  (C5_deriveChallenge_spec (fun _ => [5]) (fun _ _ => 0) ⟨1, 2, 3, 5⟩ (List.replicate 31 0)
    (show bigintByteLength 1 ≤ bigintByteLength 5 by
      rw [bigintByteLength_one_of_lt (by norm_num), bigintByteLength_one_of_lt (by norm_num)])
    (show bigintByteLength 2 ≤ bigintByteLength 5 by
      rw [bigintByteLength_one_of_lt (by norm_num), bigintByteLength_one_of_lt (by norm_num)])
    (by norm_num)).1 (by simp)

/-- **C6** (amended).  The spec says the `MontgomeryReducer` constructor
fails for even `n`; the source constructor performs no parity check at all.
Amended: for every even `n` the constructor succeeds — it returns a reducer
with modulus `n` — but that reducer violates the Montgomery precondition:
`n·n′ ≡ −1 (mod r)` is impossible because `n·n′ + 1` is odd while `r` is
even. -/
theorem C6_no_even_check (n : Nat) (he : n % 2 = 0) :
    (mkMontgomery n).n = n ∧
    ((mkMontgomery n).n * (mkMontgomery n).nPrime + 1) % (mkMontgomery n).r ≠ 0 := by
  refine ⟨mkMontgomery_n n, ?_⟩
  rw [mkMontgomery_n]
  intro h0
  have hdvd : (mkMontgomery n).r ∣ n * (mkMontgomery n).nPrime + 1 :=
    Nat.dvd_of_mod_eq_zero h0
  have h2r : (2 : Nat) ∣ (mkMontgomery n).r := Nat.dvd_of_mod_eq_zero (mkMontgomery_r_even n)
  have h3 : 2 ∣ n * (mkMontgomery n).nPrime :=
    Dvd.dvd.mul_right (Nat.dvd_of_mod_eq_zero he) _
  have h4 : 2 ∣ n * (mkMontgomery n).nPrime + 1 := dvd_trans h2r hdvd
  omega

/-- **C6**, counterexample to the claim as stated: `new MontgomeryReducer(4)`
does not throw — it successfully constructs the reducer
`{n = 4, rBits = 3, r = 8, rMask = 7, n′ = 0}` for the even modulus `4`. -/
theorem C6_counterexample : mkMontgomery 4 = ⟨4, 3, 8, 7, 0⟩ := by
  have h0 : bitLen 0 = 0 := by rw [bitLen]; rw [if_pos rfl]
  have h1 : bitLen 1 = 1 := by rw [bitLen]; norm_num [h0]
  have h2 : bitLen 2 = 2 := by rw [bitLen]; norm_num [h1]
  have hb : bitLen 4 = 3 := by rw [bitLen]; norm_num [h2]
  unfold mkMontgomery
  rw [hb]
  decide

/-- **C6**, witness. -/
theorem C6_witness : (mkMontgomery 4).n = 4 ∧
    ((mkMontgomery 4).n * (mkMontgomery 4).nPrime + 1) % (mkMontgomery 4).r ≠ 0 :=
  C6_no_even_check 4 (by norm_num)

/-- **C7.**  `modpow x y p = x^y mod p` for all `x`, `y` and `p ≥ 1`,
including the edge cases `p = 1 ↦ 0`, `y = 0 ↦ 1 mod p`, `y = 1 ↦ x mod p`,
`y = 2 ↦ x·x mod p`; and the classic path, the plain sliding-window path and
the Montgomery-routed windowed path each compute the same value under their
routing conditions. -/
theorem C7_modpow_spec (x y p : Nat) (hp : 0 < p) :
    modpow x y p = x ^ y % p ∧
    (p = 1 → modpow x y p = 0) ∧
    (y = 0 → modpow x y p = 1 % p) ∧
    (y = 1 → modpow x y p = x % p) ∧
    (y = 2 → modpow x y p = x * x % p) ∧
    (1 ≤ y → modpowClassic (x % p) y p = x ^ y % p) ∧
    (∀ window, 1 ≤ window → 1 < p →
      modpowWindowedCore (x % p) (natBits y) window (fun a => a * a % p)
        (fun a b => a * b % p) 1 = x ^ y % p) ∧
    (∀ window, 1 ≤ window → 1 < p → p % 2 = 1 →
      (mkMontgomery p).fromMontgomery (modpowWindowedCore
        ((mkMontgomery p).toMontgomery (x % p)) (natBits y) window
        (fun a => (mkMontgomery p).square a) (fun a b => (mkMontgomery p).multiply a b)
        ((mkMontgomery p).toMontgomery 1)) = x ^ y % p) := by
  have hms := modpow_spec x y p hp
  have hr : ((x ^ y % p : Nat) : ZMod p) = ((x : ZMod p)) ^ y := by
    rw [natmod_cast_eq (Nat.mod_mod_of_dvd _ dvd_rfl)]
    push_cast
    ring
  have hl : ((x % p : Nat) : ZMod p) = (x : ZMod p) :=
    natmod_cast_eq (Nat.mod_mod_of_dvd _ dvd_rfl)
  refine ⟨hms, ?_, ?_, ?_, ?_, ?_, ?_, ?_⟩
  · intro h1; rw [hms, h1, Nat.mod_one]
  · intro h0; rw [hms, h0, pow_zero]
  · intro h1; rw [hms, h1, pow_one]
  · intro h2; rw [hms, h2, pow_two]
  · intro hy
    obtain ⟨hlt, hcast⟩ := modpowClassic_spec (x % p) y p hp hy
    apply natCast_zmod_inj hlt (Nat.mod_lt _ hp)
    rw [hcast, hl, hr]
  · intro window hwin hp1
    obtain ⟨hlt, hcast⟩ :=
      windowed_plain_spec p hp1 (x % p) (Nat.mod_lt _ hp) (natBits y) window hwin
    apply natCast_zmod_inj hlt (Nat.mod_lt _ hp)
    rw [hcast, bitsVal_natBits, hl, hr]
  · intro window hwin hp1 hodd
    rw [windowed_mont_spec p hodd hp1 (x % p) (Nat.mod_lt _ hp) (natBits y) window hwin,
      bitsVal_natBits, ← Nat.pow_mod]

/-- **C7**, witness. -/
theorem C7_witness : modpow 3 5 7 = 3 ^ 5 % 7 := (C7_modpow_spec 3 5 7 (by norm_num)).1

/-- **C8.**  For odd `n > 1`: `r = 2^rBits` is the smallest power of two
exceeding `n` (`n < r` and `2^(rBits−1) ≤ n`), the Hensel-lifted constant
satisfies `n·n′ ≡ −1 (mod r)`, and for every `x < n·r`, `reduce x < n` with
`reduce x · r ≡ x (mod n)` (i.e. `reduce x ≡ x·r⁻¹`). -/
theorem C8_montgomery_spec (n : Nat) (hodd : n % 2 = 1) (hn : 1 < n) :
    (mkMontgomery n).r = 2 ^ (mkMontgomery n).rBits ∧
    n < (mkMontgomery n).r ∧
    2 ^ ((mkMontgomery n).rBits - 1) ≤ n ∧
    (n * (mkMontgomery n).nPrime + 1) % (mkMontgomery n).r = 0 ∧
    ∀ x, x < n * (mkMontgomery n).r →
      (mkMontgomery n).reduce x < n
      ∧ (mkMontgomery n).reduce x * (mkMontgomery n).r % n = x % n := by
  have hn0 : n ≠ 0 := by omega
  refine ⟨?_, mkMontgomery_n_lt_r n hn0, ?_, ?_, fun x hx => mont_reduce_spec n hodd hn x hx⟩
  · rw [mkMontgomery_r_eq n hn0, mkMontgomery_rBits n hn0]
  · rw [mkMontgomery_rBits n hn0]
    exact two_pow_bitLen_pred_le n hn0
  · have h := mont_nPrime_spec n hodd hn
    have hdvd : (mkMontgomery n).r ∣ n * (mkMontgomery n).nPrime + 1 := by
      have h2 : ((n : Int) * (mkMontgomery n).nPrime + 1)
          = ((n * (mkMontgomery n).nPrime + 1 : Nat) : Int) := by push_cast; ring
      rw [h2] at h
      exact_mod_cast h
    exact Nat.mod_eq_zero_of_dvd hdvd

/-- **C8**, witness. -/
theorem C8_witness : (mkMontgomery 5).r = 2 ^ (mkMontgomery 5).rBits :=
  (C8_montgomery_spec 5 (by norm_num) (by norm_num)).1

/-- **C10.**  In the probabilistic regime (odd
`n ≥ 318665857834031151167461`, equal to no small prime and divisible by no
prime `≤ 1000`), calling `isPrime` with `rounds = 0` returns `true` — even
for composite `n` — because the random-witness loop runs zero times. -/
theorem C10_isPrime_zero_rounds (rng : Nat → Nat → Nat) (n : Nat)
    (hbound : 318665857834031151167461 ≤ n) (hodd : n % 2 = 1) (hcomp : ¬ n.Prime)
    (hdvd : ∀ p, p.Prime → p ≤ 1000 → ¬ p ∣ n) :
    isPrime rng n 0 = true := by
  have htd : trialDivide n SMALL_PRIMES = none := by
    apply trialDivide_none
    intro p hp
    obtain ⟨hprime, hle⟩ := SMALL_PRIMES_prime p hp
    constructor
    · intro heq
      omega
    · intro hmod
      exact hdvd p hprime hle (Nat.dvd_of_mod_eq_zero hmod)
  unfold isPrime
  rw [if_neg (show ¬ n < 2 by omega), if_neg (show ¬ (n = 2 ∨ n = 3) by omega),
    if_neg (show ¬ n % 2 = 0 by omega), htd]
  show (if n < 318665857834031151167461 then _ else
    probCheck rng n (twoAdic (n - 1)).2 (twoAdic (n - 1)).1 0 0) = true
  rw [if_neg (show ¬ n < 318665857834031151167461 by omega)]
  rfl

/-- **C10**, witness: `1009^9` is odd, above the deterministic bound,
composite, and has no prime factor `≤ 1000`. -/
theorem C10_witness : isPrime (fun _ _ => 0) (1009 ^ 9) 0 = true :=
  C10_isPrime_zero_rounds (fun _ _ => 0) (1009 ^ 9) (by norm_num) (by decide)
    (by
      intro hp
      rcases hp.eq_one_or_self_of_dvd 1009 (dvd_pow_self 1009 (by norm_num)) with h | h
      · norm_num at h
      · norm_num at h)
    (by
      intro p hp hle hdvd
      have h1009 : Nat.Prime 1009 := by norm_num
      have hpd : p ∣ 1009 := hp.dvd_of_dvd_pow hdvd
      have heq := (Nat.prime_dvd_prime_iff_eq hp h1009).mp hpd
      omega)

end Wesolowski
